import Mathlib

/-!
Verification of the navigation/highlight core of the re-focus reader.

The definitions below are shallow embeddings of the TypeScript source:
* `WordItem`, `sectAt` — the per-page word list (src/src/App.tsx, `WordItem`);
* `scanNearest`, `prevInSection`, `nextInSection`, `firstOcc`,
  `firstOfNextSectionForIndex` — `computeNavigationForPage`
  (src/src/App.tsx lines 162-219);
* navigation commands, highlight store, mark scheduler, drag commit,
  the word segmenter and the rectangle merger follow further down.
-/

namespace ReFocus

/-- A parsed word as stored in a page's word list: only the fields the
navigation core reads (`sectionIndex`, `sentenceIndex`). -/
structure WordItem where
  sectionIndex : Nat
  sentenceIndex : Nat
deriving DecidableEq

/-- `wordsOnPage[j]?.sectionIndex` — the section of the `j`-th word,
`none` when `j` is out of range (JS `?.` yields `undefined`). -/
def sectAt (words : List WordItem) (j : Nat) : Option Nat :=
  (words[j]?).map (·.sectionIndex)

/-- One pass of the `lastSeen` scan of `computeNavigationForPage`:
iterate over the index list `is`; at index `i` output the stored index for
`i`'s section (`-1` when none) and then record `i` as the last seen index
of its section.  `prevInSection` runs it left-to-right, `nextInSection`
right-to-left. -/
def scanNearest (sect : Nat → Option Nat) : List Nat → (Nat → Option Nat) → List Int
  | [], _ => []
  | i :: is, ls =>
    (match sect i with
      | some s =>
        match ls s with
        | some j => (j : Int)
        | none => -1
      | none => -1)
    :: scanNearest sect is (fun t => if sect i = some t then some i else ls t)

/-- `prevInSection`: left-to-right scan with a last-seen-index-per-section
map (src/src/App.tsx lines 177-185). -/
def prevInSection (words : List WordItem) : List Int :=
  scanNearest (sectAt words) (List.range words.length) (fun _ => none)

/-- `nextInSection`: the symmetric right-to-left scan
(src/src/App.tsx lines 187-195). -/
def nextInSection (words : List WordItem) : List Int :=
  (scanNearest (sectAt words) (List.range words.length).reverse (fun _ => none)).reverse

/-- The value `scanNearest` outputs at an index `i`, given the
last-seen map `f` current when `i` is processed. -/
def scanEntry (sect : Nat → Option Nat) (f : Nat → Option Nat) (i : Nat) : Int :=
  match sect i with
  | some s =>
    match f s with
    | some j => (j : Int)
    | none => -1
  | none => -1

/-- The last-seen map after processing the indices `P` in order,
starting from `ls`. -/
def lsAfter (sect : Nat → Option Nat) (ls : Nat → Option Nat) : List Nat → (Nat → Option Nat)
  | [] => ls
  | i :: P => lsAfter sect (fun t => if sect i = some t then some i else ls t) P

/-- First pass of `computeNavigationForPage`: per section, the index of its
first word, in first-occurrence order (`firstIndexOfSection` plus
`sectionOrder`, src/src/App.tsx 168-175). -/
def firstOccAux : List WordItem → Nat → List (Nat × Nat) → List (Nat × Nat)
  | [], _, acc => acc
  | w :: ws, i, acc =>
    firstOccAux ws (i + 1)
      (if (acc.lookup w.sectionIndex).isSome then acc else acc ++ [(w.sectionIndex, i)])

def firstOcc (words : List WordItem) : List (Nat × Nat) :=
  firstOccAux words 0 []

/-- The page's sections in order of first occurrence. -/
def sectionOrder (words : List WordItem) : List Nat :=
  (firstOcc words).map (·.1)

/-- `nextSectionFirst`: section ↦ first index of the section following it
in first-occurrence order, `none` for the last section
(src/src/App.tsx 204-210). -/
def nextSectionFirstMap : List (Nat × Nat) → List (Nat × Option Nat)
  | [] => []
  | (s, _) :: rest => (s, rest.head?.map (·.2)) :: nextSectionFirstMap rest

/-- `firstOfNextSectionForIndex` (src/src/App.tsx 212-216):
`nextFirst !== null && nextFirst !== undefined ? nextFirst : -1`. -/
def firstOfNextSectionForIndex (words : List WordItem) : List Int :=
  words.map (fun w =>
    match (nextSectionFirstMap (firstOcc words)).lookup w.sectionIndex with
    | some (some idx) => (idx : Int)
    | some none => -1
    | none => -1)

/-- What the key handler reads from the document: the total page count and
the parsed words of each page (`[]` for a page not yet parsed). -/
structure DocEnv where
  numPages : Nat
  pageWords : Nat → List WordItem

structure Cursor where
  page : Nat
  word : Nat
deriving DecidableEq

/-- The effects of one word-navigation command: the scheduled highlighted
position, the `clearPreviousVisited(page, section)` calls and the
scheduled marks of the destination word in the active tier. -/
structure NavResult where
  cursor : Cursor
  clears : List (Nat × Option Nat)
  marks : List (Nat × Nat)
deriving DecidableEq

/-- The `for (p = page + 1; p <= numPages; p++)` scan for the first page
with parsed words. -/
def findNonEmptyPage (env : DocEnv) (start : Nat) : Option Nat :=
  (List.range' start (env.numPages + 1 - start)).find? (fun p => !(env.pageWords p).isEmpty)

/-- `ArrowRight` (advance-word) in word mode, src/src/App.tsx 605-721,
on a parsed page taking the precomputed-navigation path. -/
def advanceWord (env : DocEnv) (cur : Cursor) : NavResult :=
  let wordsOnPage := env.pageWords cur.page
  if wordsOnPage.isEmpty then
    if cur.page + 1 ≤ env.numPages then
      let nextPage := cur.page + 1
      let wordsNext := env.pageWords nextPage
      { cursor := ⟨nextPage, 0⟩,
        clears := [(nextPage, wordsNext.head?.map (·.sectionIndex))],
        marks := [(nextPage, 0)] }
    else ⟨cur, [], []⟩
  else
    match wordsOnPage[cur.word]? with
    | none => ⟨cur, [], []⟩
    | some _ =>
      let fromNext := ((nextInSection wordsOnPage)[cur.word]?).getD (-1)
      let nextWordIndex :=
        if fromNext = -1 then ((firstOfNextSectionForIndex wordsOnPage)[cur.word]?).getD (-1)
        else fromNext
      if nextWordIndex ≠ -1 then
        { cursor := ⟨cur.page, nextWordIndex.toNat⟩, clears := [],
          marks := [(cur.page, nextWordIndex.toNat)] }
      else
        match findNonEmptyPage env (cur.page + 1) with
        | some p =>
          { cursor := ⟨p, 0⟩,
            clears := [(p, (env.pageWords p).head?.map (·.sectionIndex))],
            marks := [(p, 0)] }
        | none => ⟨cur, [], []⟩

/-- Per-page visited state `{ section: number | null, indices: number[] }`. -/
structure VisitedEntry where
  sect : Option Nat
  indices : List Nat
deriving DecidableEq

/-- The visited store: a page-keyed object, embedded as an association
list in key-insertion order. -/
abbrev VisitedMap := List (Nat × VisitedEntry)

/-- `clearPreviousVisited(targetPage, targetSection)`,
src/src/App.tsx 580-603: only `visitedWords` is touched; entries on pages
before `targetPage`, or on `targetPage` in a section before
`targetSection`, are reset to `{ section: null, indices: [] }`. -/
def clearPreviousVisited (targetPage : Nat) (targetSection : Option Nat)
    (vw : VisitedMap) : VisitedMap :=
  vw.map (fun pe =>
    match pe.2.sect with
    | none => pe
    | some s =>
      if pe.1 < targetPage then (pe.1, ⟨none, []⟩)
      else if pe.1 = targetPage then
        match targetSection with
        | some ts => if s < ts then (pe.1, ⟨none, []⟩) else pe
        | none => pe
      else pe)

/-- JS `Set` iteration-order dedup: keep the first occurrence of each
element (`new Set(xs)` then `Array.from`). -/
def dedupKeepFirstAux {α : Type} [DecidableEq α] : List α → List α → List α
  | _, [] => []
  | seen, x :: xs =>
    if x ∈ seen then dedupKeepFirstAux seen xs
    else x :: dedupKeepFirstAux (x :: seen) xs

def dedupKeepFirst {α : Type} [DecidableEq α] (l : List α) : List α :=
  dedupKeepFirstAux [] l

/-- Effects of `ArrowLeft` (retreat-word): the new highlighted position,
the unmark of the current word in the active tier, and the scheduled
marks of the destination. -/
structure RetreatResult where
  cursor : Cursor
  unmarks : List (Nat × Nat)
  marks : List (Nat × Nat)
deriving DecidableEq

/-- The `for (p = page - 1; p >= 1; p--)` scan for the previous page with
parsed words. -/
def findPrevNonEmptyPage (env : DocEnv) : Nat → Option Nat
  | 0 => none
  | p + 1 => if !(env.pageWords (p + 1)).isEmpty then some (p + 1)
             else findPrevNonEmptyPage env p

/-- `ArrowLeft` (retreat-word) in word mode, src/src/App.tsx 944-1020, on
a parsed page taking the precomputed-navigation path.  The fallback when
`prevInSection` is `-1` takes the distinct sections smaller than the
current one, sorts them descending, and jumps to `findIndex` of the
largest — i.e. the FIRST word of the nearest earlier section. -/
def retreatWord (env : DocEnv) (cur : Cursor) : RetreatResult :=
  let wordsOnPage := env.pageWords cur.page
  if wordsOnPage.isEmpty then
    if 1 < cur.page then
      let prevPage := cur.page - 1
      let prevWords := env.pageWords prevPage
      let lastIndex := if prevWords.isEmpty then 0 else prevWords.length - 1
      { cursor := ⟨prevPage, lastIndex⟩,
        unmarks := [(cur.page, cur.word)],
        marks := [(prevPage, lastIndex)] }
    else ⟨cur, [], []⟩
  else
    match wordsOnPage[cur.word]? with
    | none => ⟨cur, [], []⟩
    | some w =>
      let fromPrev := ((prevInSection wordsOnPage)[cur.word]?).getD (-1)
      let prevWordIndex :=
        if fromPrev = -1 then
          let prevSections :=
            List.insertionSort (fun a b : Nat => b ≤ a)
              ((dedupKeepFirst (wordsOnPage.map (·.sectionIndex))).filter
                (fun s => decide (s < w.sectionIndex)))
          match prevSections.head? with
          | some s =>
            match wordsOnPage.findIdx? (fun x => x.sectionIndex = s) with
            | some j => (j : Int)
            | none => -1
          | none => -1
        else fromPrev
      if prevWordIndex ≠ -1 then
        { cursor := ⟨cur.page, prevWordIndex.toNat⟩,
          unmarks := [(cur.page, cur.word)],
          marks := [(cur.page, prevWordIndex.toNat)] }
      else
        match findPrevNonEmptyPage env (cur.page - 1) with
        | some p =>
          { cursor := ⟨p, (env.pageWords p).length - 1⟩,
            unmarks := [(cur.page, cur.word)],
            marks := [(p, (env.pageWords p).length - 1)] }
        | none => ⟨cur, [(cur.page, cur.word)], []⟩

/-- `new Set(indices)` then `set.add(w)` then `Array.from`: dedup keeping
first occurrences, append `w` when absent. -/
def addIdx (l : List Nat) (w : Nat) : List Nat :=
  let d := dedupKeepFirst l
  if w ∈ d then d else d ++ [w]

/-- JS object property write: an existing key keeps its position, a new
key is appended. -/
def alSet {β : Type} (k : Nat) (v : β) (m : List (Nat × β)) : List (Nat × β) :=
  if (m.lookup k).isSome then m.map (fun kv => if kv.1 = k then (k, v) else kv)
  else m ++ [(k, v)]

/-- JS `delete obj[k]`: other keys keep their order. -/
def alRemove {β : Type} (k : Nat) (m : List (Nat × β)) : List (Nat × β) :=
  m.filter (fun kv => decide (kv.1 ≠ k))

/-- One visited-batch update of the scheduler flush
(src/src/App.tsx 248-268), including the null-section migration branch. -/
def visitStep (pageWords : Nat → List WordItem) : VisitedMap → Nat × Nat → VisitedMap
  | vw, (p, w) =>
    let wordsOnPage := pageWords p
    let sec := sectAt wordsOnPage w
    match vw.lookup p with
    | none => alSet p ⟨sec, [w]⟩ vw
    | some entry =>
      if entry.sect = sec then alSet p ⟨sec, addIdx entry.indices w⟩ vw
      else
        match entry.sect, sec with
        | none, some s =>
          let valid := entry.indices.filter (fun idx => sectAt wordsOnPage idx = some s)
          alSet p ⟨some s, addIdx valid w⟩ vw
        | _, _ => alSet p ⟨sec, [w]⟩ vw

/-- The annotated store: page ↦ (section ↦ word indices). -/
abbrev AnnotMap := List (Nat × List (Nat × List Nat))

/-- One annotate-batch update of the flush (src/src/App.tsx 276-285):
no-op when the word's section is unresolvable. -/
def annotStep (pageWords : Nat → List WordItem) : AnnotMap → Nat × Nat → AnnotMap
  | am, (p, w) =>
    let wordsOnPage := pageWords p
    match sectAt wordsOnPage w with
    | none => am
    | some s =>
      let pageMap := (am.lookup p).getD []
      alSet p (alSet s (addIdx ((pageMap.lookup s).getD []) w) pageMap) am

/-- One erase-batch update of the flush (src/src/App.tsx 293-310):
remove the word; drop the section key when it empties; drop the page
entry when the page map empties. -/
def eraseStep (pageWords : Nat → List WordItem) : AnnotMap → Nat × Nat → AnnotMap
  | am, (p, w) =>
    let wordsOnPage := pageWords p
    let pageMap := (am.lookup p).getD []
    match sectAt wordsOnPage w with
    | none => am
    | some s =>
      if ((pageMap.lookup s).getD []).isEmpty then am
      else
        let filtered := ((pageMap.lookup s).getD []).filter (fun i => decide (i ≠ w))
        let pageMap' := if filtered.isEmpty then alRemove s pageMap
                        else alSet s filtered pageMap
        if pageMap'.isEmpty then alRemove p am else alSet p pageMap' am

/-- `unmarkVisited` (src/src/App.tsx 106-121): remove the word; reset the
section to `null` when nothing remains. -/
def unmarkVisited (vw : VisitedMap) (p w : Nat) : VisitedMap :=
  match vw.lookup p with
  | none => vw
  | some entry =>
    let filtered := entry.indices.filter (fun i => decide (i ≠ w))
    if filtered.isEmpty then alSet p ⟨none, []⟩ vw
    else alSet p ⟨entry.sect, filtered⟩ vw

/-- The `ArrowUp` section-restart clear of the visited store
(src/src/App.tsx 1103-1112): clears the page entry only when the stored
section matches the cursor's section. -/
def sectionRestartClear (vw : VisitedMap) (p : Nat) (currentSection : Nat) : VisitedMap :=
  match vw.lookup p with
  | none => vw
  | some entry =>
    if entry.sect = some currentSection then alSet p ⟨none, []⟩ vw else vw

/-- The three mark tiers: `annotate: boolean | 'erase'` in the source. -/
inductive Tier where
  | visited
  | annotate
  | erase
deriving DecidableEq

/-- A scheduled mark request `(page, word, tier)`; the dedup key
`page:word:annotate` is the whole record. -/
structure MarkReq where
  page : Nat
  word : Nat
  tier : Tier
deriving DecidableEq

/-- The dedup-and-partition loop of the flush (src/src/App.tsx 230-243):
skip requests whose key was seen, split the rest into the visited,
annotate and erase batches in queue order. -/
def flushPartitionAux : List MarkReq → List MarkReq →
    List (Nat × Nat) × List (Nat × Nat) × List (Nat × Nat)
  | _, [] => ([], [], [])
  | seen, m :: ms =>
    if m ∈ seen then flushPartitionAux seen ms
    else
      let rest := flushPartitionAux (m :: seen) ms
      match m.tier with
      | .visited => ((m.page, m.word) :: rest.1, rest.2.1, rest.2.2)
      | .annotate => (rest.1, (m.page, m.word) :: rest.2.1, rest.2.2)
      | .erase => (rest.1, rest.2.1, (m.page, m.word) :: rest.2.2)

def flushPartition (pending : List MarkReq) :
    List (Nat × Nat) × List (Nat × Nat) × List (Nat × Nat) :=
  flushPartitionAux [] pending

/-- The deduplicated queue (first occurrence of each key kept). -/
def dedupMarks (pending : List MarkReq) : List MarkReq :=
  dedupKeepFirst pending

/-- The two per-page stores owned by the highlight state. -/
structure HighlightStore where
  visited : VisitedMap
  annotated : AnnotMap
deriving DecidableEq

def applyVisitBatch (pw : Nat → List WordItem) (vw : VisitedMap)
    (batch : List (Nat × Nat)) : VisitedMap :=
  batch.foldl (visitStep pw) vw

def applyAnnotBatch (pw : Nat → List WordItem) (am : AnnotMap)
    (batch : List (Nat × Nat)) : AnnotMap :=
  batch.foldl (annotStep pw) am

def applyEraseBatch (pw : Nat → List WordItem) (am : AnnotMap)
    (batch : List (Nat × Nat)) : AnnotMap :=
  batch.foldl (eraseStep pw) am

/-- The whole scheduler flush (src/src/App.tsx 227-315): dedup, partition,
then apply the visited, annotate and erase batches, in that fixed order. -/
def applyFlush (pw : Nat → List WordItem) (st : HighlightStore)
    (pending : List MarkReq) : HighlightStore :=
  let b := flushPartition pending
  { visited := applyVisitBatch pw st.visited b.1,
    annotated := applyEraseBatch pw (applyAnnotBatch pw st.annotated b.2.1) b.2.2 }

/-- The visited-store invariant (C10): an entry with a non-null stored
section only holds indices of words of that page having exactly that
`sectionIndex`. -/
def VisitedInv (pw : Nat → List WordItem) (vw : VisitedMap) : Prop :=
  ∀ pe ∈ vw, pe.2.sect = none ∨ ∀ i ∈ pe.2.indices, sectAt (pw pe.1) i = pe.2.sect

/-- The spec's example page: sections `[0,0,0,1,1,1,1,2,2,2]`. -/
def pageA : List WordItem :=
  [⟨0,0⟩, ⟨0,0⟩, ⟨0,0⟩, ⟨1,0⟩, ⟨1,0⟩, ⟨1,0⟩, ⟨1,0⟩, ⟨2,0⟩, ⟨2,0⟩, ⟨2,0⟩]

/-- A small second page, sections `[0,0]`. -/
def pageB : List WordItem := [⟨0,0⟩, ⟨0,0⟩]

/-- A one-page document holding `pageA`. -/
def envA : DocEnv := ⟨1, fun p => if p = 1 then pageA else []⟩

/-- A two-page document holding `pageA` then `pageB`. -/
def envB : DocEnv := ⟨2, fun p => if p = 1 then pageA else if p = 2 then pageB else []⟩

/-- The live drag selection `{ start, end }`. -/
structure DragSel where
  startP : Nat
  startW : Nat
  endP : Nat
  endW : Nat

/-- Whether the drag's start word is already annotated
(src/src/App.tsx 427-436). -/
def dragStartAnnotated (pw : Nat → List WordItem) (am : AnnotMap) (ds : DragSel) : Bool :=
  match (pw ds.startP)[ds.startW]? with
  | none => false
  | some wi =>
    match am.lookup ds.startP with
    | none => false
    | some pageAnnots =>
      match pageAnnots.lookup wi.sectionIndex with
      | none => false
      | some idxs => decide (ds.startW ∈ idxs)

/-- The `handleMouseUp` drag commit (src/src/App.tsx 417-469): expand the
inclusive range across pages and schedule every word in it with the one
tier chosen from the start word (`'erase'` when it is annotated,
annotate otherwise). -/
def dragCommitMarks (pw : Nat → List WordItem) (am : AnnotMap) (ds : DragSel) :
    List (Nat × Nat × Tier) :=
  let startPage := min ds.startP ds.endP
  let endPage := max ds.startP ds.endP
  let tier := if dragStartAnnotated pw am ds then Tier.erase else Tier.annotate
  (List.range' startPage (endPage + 1 - startPage)).flatMap (fun pageNum =>
    let words := pw pageNum
    if words.isEmpty then []
    else
      let startIndex :=
        if pageNum = startPage then
          (if startPage = endPage then min ds.startW ds.endW
           else if ds.startP = pageNum then ds.startW else ds.endW)
        else 0
      let endIndex :=
        if pageNum = startPage ∧ startPage = endPage then max ds.startW ds.endW
        else if pageNum = endPage ∧ startPage ≠ endPage then
          (if ds.endP = pageNum then ds.endW else ds.startW)
        else words.length - 1
      (List.range' startIndex (endIndex + 1 - startIndex)).map
        (fun i => (pageNum, i, tier)))

/-- A page of five words, all in section 0. -/
def pageC : List WordItem := [⟨0,0⟩, ⟨0,0⟩, ⟨0,0⟩, ⟨0,0⟩, ⟨0,0⟩]

/-- JS `trim`: drop leading and trailing whitespace characters. -/
def trimChars (l : List Char) : List Char :=
  ((l.dropWhile Char.isWhitespace).reverse.dropWhile Char.isWhitespace).reverse

/-- A 2-D text transform `[a, b, c, d, e, f]` as the text-extraction
provider delivers it: `b`, `c` are the skew components, `d` the vertical
scale, `e`, `f` the translation. -/
structure Transform2D where
  a : ℚ
  b : ℚ
  c : ℚ
  d : ℚ
  e : ℚ
  f : ℚ
deriving DecidableEq

/-- One raw text run (`textContent.items` entry), its text as a character
list. -/
structure TextRun where
  str : List Char
  transform : Transform2D
  width : ℚ
deriving DecidableEq

/-- A word pushed by the segmentation loop. -/
structure ParsedWord where
  str : List Char
  width : ℚ
  tx : Transform2D
  height : ℚ
  sectionIndex : Nat
  sentenceIndex : Nat
deriving DecidableEq

/-- Group consecutive characters by whitespace-ness: the token and
separator runs that `split(/(\s+)/)` yields (the boundary empty strings
that split can emit carry zero width and are never emitted as words). -/
def splitRuns : List Char → List (List Char)
  | [] => []
  | c :: cs =>
    match splitRuns cs with
    | [] => [[c]]
    | g :: gs =>
      match g with
      | [] => [c] :: gs
      | d :: _ =>
        if c.isWhitespace = d.isWhitespace then (c :: g) :: gs else [c] :: g :: gs

/-- The regexp `[.!?]$` applied to the trimmed token. -/
def endsSentence (l : List Char) : Bool :=
  match l.getLast? with
  | some c => decide (c = '.' ∨ c = '!' ∨ c = '?')
  | none => false

/-- The inner token loop of the segmentation (src/unnamed/part_000
113-135): distribute the run width proportionally to character count,
emit each non-blank token at the accumulated x-offset, and advance the
sentence counter after a terminator token. -/
def emitParts (item : TextRun) (secIdx : Nat) :
    List (List Char) → ℚ → Nat → List ParsedWord × Nat
  | [], _, senIdx => ([], senIdx)
  | part :: ps, xOff, senIdx =>
    let partWidth := ((part.length : ℚ) / (item.str.length : ℚ)) * item.width
    if trimChars part ≠ [] then
      let word : ParsedWord :=
        { str := part, width := partWidth,
          tx := { item.transform with e := item.transform.e + xOff },
          height := |item.transform.d|,
          sectionIndex := secIdx, sentenceIndex := senIdx }
      let senIdx' := if endsSentence (trimChars part) then senIdx + 1 else senIdx
      let rest := emitParts item secIdx ps (xOff + partWidth) senIdx'
      (word :: rest.1, rest.2)
    else
      emitParts item secIdx ps (xOff + partWidth) senIdx

/-- The paragraph-break rule (src/unnamed/part_000 102-111): bump the
section counter when the vertical gap to the previous kept run exceeds
1.5 times its glyph height; the first kept run keeps section 0. -/
def sectionBump (secIdx : Nat) (lastY lastH : Option ℚ) (currentY : ℚ) : Nat :=
  match lastY, lastH with
  | some ly, some lh => if |currentY - ly| > lh * (3 / 2) then secIdx + 1 else secIdx
  | some _, none => secIdx
  | none, some _ => secIdx
  | none, none => secIdx

/-- The page segmentation loop (src/unnamed/part_000 84-139): skip blank
or skewed/degenerate runs, apply the paragraph-break rule, then tokenize
the run. -/
def segmentLoop : List TextRun → Nat → Nat → Option ℚ → Option ℚ → List ParsedWord
  | [], _, _, _, _ => []
  | item :: rest, secIdx, senIdx, lastY, lastH =>
    if trimChars item.str = [] then segmentLoop rest secIdx senIdx lastY lastH
    else
      if |item.transform.b| > 1 / 10000 ∨ |item.transform.c| > 1 / 10000 ∨
          |item.transform.d| ≤ 0 ∨ item.width ≤ 0 then
        segmentLoop rest secIdx senIdx lastY lastH
      else
        (emitParts item (sectionBump secIdx lastY lastH item.transform.f)
          (splitRuns item.str) 0 senIdx).1 ++
        segmentLoop rest (sectionBump secIdx lastY lastH item.transform.f)
          (emitParts item (sectionBump secIdx lastY lastH item.transform.f)
            (splitRuns item.str) 0 senIdx).2
          (some item.transform.f) (some |item.transform.d|)

/-- The word segmenter: one page's raw runs to its `WordItem` list. -/
def segmentPage (items : List TextRun) : List ParsedWord :=
  segmentLoop items 0 0 none none

/-- Constants from src/src/constants/config.ts. -/
def PDF_SCALE : ℚ := 2

def LINE_TOLERANCE_MULTIPLIER : ℚ := 2

/-- A word's highlight rectangle (src/src/utils/highlightUtils.ts 3-9). -/
structure HighlightRect where
  x : ℚ
  y : ℚ
  width : ℚ
  height : ℚ
  lineY : ℚ
deriving DecidableEq

/-- The JS sort comparator `(a.lineY - b.lineY) || (a.x - b.x)` as the
total preorder it induces. -/
def rectLE (a b : HighlightRect) : Prop :=
  a.lineY < b.lineY ∨ (a.lineY = b.lineY ∧ a.x ≤ b.x)

instance : DecidableRel rectLE := fun a b => by
  unfold rectLE
  infer_instance

instance : IsTotal HighlightRect rectLE where
  total a b := by
    unfold rectLE
    rcases lt_trichotomy a.lineY b.lineY with h | h | h
    · exact Or.inl (Or.inl h)
    · rcases le_total a.x b.x with h' | h'
      · exact Or.inl (Or.inr ⟨h, h'⟩)
      · exact Or.inr (Or.inr ⟨h.symm, h'⟩)
    · exact Or.inr (Or.inl h)

instance : IsTrans HighlightRect rectLE where
  trans a b c hab hbc := by
    unfold rectLE at *
    rcases hab with h1 | ⟨h1, h1'⟩ <;> rcases hbc with h2 | ⟨h2, h2'⟩
    · exact Or.inl (h1.trans h2)
    · exact Or.inl (h2 ▸ h1)
    · exact Or.inl (h1 ▸ h2)
    · exact Or.inr ⟨h1.trans h2, h1'.trans h2'⟩

/-- The merge of two rectangles on one line: union the bounding boxes and
average the rounded baselines (src/src/utils/highlightUtils.ts 32-41). -/
def mergeRects (c n : HighlightRect) : HighlightRect :=
  { x := min c.x n.x,
    y := min c.y n.y,
    width := max (c.x + c.width) (n.x + n.width) - min c.x n.x,
    height := max (c.y + c.height) (n.y + n.height) - min c.y n.y,
    lineY := ((round ((c.lineY + n.lineY) / 2) : ℤ) : ℚ) }

/-- The left-to-right scan over the sorted rectangles
(src/src/utils/highlightUtils.ts 25-48): fold the running rectangle into
the next one when both on the same line and close enough, else push it. -/
def mergeLoop (lineTol gapTol : ℚ) : HighlightRect → List HighlightRect → List HighlightRect
  | c, [] => [c]
  | c, n :: rest =>
    if |n.lineY - c.lineY| ≤ lineTol ∧ n.x ≤ c.x + c.width + gapTol then
      mergeLoop lineTol gapTol (mergeRects c n) rest
    else c :: mergeLoop lineTol gapTol n rest

def runMerge (lineTol gapTol : ℚ) : List HighlightRect → List HighlightRect
  | [] => []
  | c :: rest => mergeLoop lineTol gapTol c rest

/-- `mergeHighlightRects` (src/src/utils/highlightUtils.ts 14-51).  The
JS engine's `Array.prototype.sort` is a stable sort, embedded here as
insertion sort; the average width is a multiset quantity, unchanged by
the in-place sort that precedes it in the source. -/
def mergeHighlightRects (rawRects : List HighlightRect) : List HighlightRect :=
  if rawRects.isEmpty then []
  else
    runMerge (max 2 (LINE_TOLERANCE_MULTIPLIER * PDF_SCALE))
      (max (12 * PDF_SCALE)
        ((((rawRects.map (·.width)).sum) / (rawRects.length : ℚ)) * (8 / 10)))
      (List.insertionSort rectLE rawRects)

/-- One adjacent transposition of two key-equal rectangles. -/
def SwapStep (l₁ l₂ : List HighlightRect) : Prop :=
  ∃ pre u v post, l₁ = pre ++ u :: v :: post ∧ l₂ = pre ++ v :: u :: post ∧
    u.lineY = v.lineY ∧ u.x = v.x

theorem scanNearest_length (sect : Nat → Option Nat) :
    ∀ (is : List Nat) (ls), (scanNearest sect is ls).length = is.length := by
  intro is
  induction is with
  | nil => intro ls; rfl
  | cons i is ih => intro ls; simp [scanNearest, ih]

/-- Positional characterisation of the scan: the entry produced for the
`k`-th index is determined by the last-seen map accumulated over the
first `k` indices. -/
theorem scanNearest_getElem? (sect : Nat → Option Nat) :
    ∀ (is : List Nat) (ls : Nat → Option Nat) (k i : Nat), is[k]? = some i →
      (scanNearest sect is ls)[k]? = some (scanEntry sect (lsAfter sect ls (is.take k)) i) := by
  intro is
  induction is with
  | nil => intro ls k i h; simp at h
  | cons j is ih =>
    intro ls k i h
    cases k with
    | zero =>
      simp at h
      subst h
      simp [scanNearest, lsAfter, scanEntry]
    | succ k =>
      simp at h
      simpa [scanNearest, lsAfter] using ih _ k i h

/-- The accumulated last-seen map stores, per section, the last processed
index of that section (falling back to the initial map). -/
theorem lsAfter_eq (sect : Nat → Option Nat) :
    ∀ (P : List Nat) (ls : Nat → Option Nat) (s : Nat),
      lsAfter sect ls P s =
        match (P.filter (fun j => sect j = some s)).getLast? with
        | some j => some j
        | none => ls s := by
  intro P
  induction P with
  | nil => intro ls s; simp [lsAfter]
  | cons j P ih =>
    intro ls s
    by_cases hj : sect j = some s
    · rw [lsAfter, ih]
      have hfil : (j :: P).filter (fun j => decide (sect j = some s)) =
          j :: P.filter (fun j => decide (sect j = some s)) := by
        simp [List.filter_cons, hj]
      rw [hfil]
      cases h' : P.filter (fun j => decide (sect j = some s)) with
      | nil => simp [h', hj]
      | cons a l =>
        simp only [h', List.getLast?_cons_cons]
        have hs : (a :: l).getLast?.isSome := by
          rw [List.getLast?_isSome]; simp
        rcases Option.isSome_iff_exists.mp hs with ⟨m, hm⟩
        rw [hm]
    · rw [lsAfter, ih]
      have hfil : (j :: P).filter (fun j => decide (sect j = some s)) =
          P.filter (fun j => decide (sect j = some s)) := by
        simp [List.filter_cons, hj]
      rw [hfil]
      cases hP : (P.filter (fun j => decide (sect j = some s))).getLast? with
      | some m => simp
      | none => simp [hj]

theorem drop_range' : ∀ (m a n : Nat), (List.range' a n).drop m = List.range' (a + m) (n - m) := by
  intro m
  induction m with
  | zero => intro a n; simp
  | succ m ih =>
    intro a n
    cases n with
    | zero => simp [List.range']
    | succ n =>
      rw [List.range'_succ, List.drop_succ_cons, ih (a + 1) n]
      rw [show a + 1 + m = a + (m + 1) by omega]
      rw [show n - m = n + 1 - (m + 1) by omega]

theorem drop_range (n m : Nat) : (List.range n).drop m = List.range' m (n - m) := by
  rw [List.range_eq_range', drop_range']
  simp

/-- The last element of `filter p (range k)` is the largest index `< k`
satisfying `p`. -/
theorem getLast?_filter_range (p : Nat → Bool) :
    ∀ (k j : Nat), ((List.range k).filter p).getLast? = some j →
      p j = true ∧ j < k ∧ ∀ l, j < l → l < k → p l = false := by
  intro k
  induction k with
  | zero => intro j h; simp at h
  | succ k ih =>
    intro j h
    rw [List.range_succ, List.filter_append] at h
    by_cases hk : p k
    · have : List.filter p [k] = [k] := by simp [hk]
      rw [this, List.getLast?_concat] at h
      obtain rfl : j = k := by simpa using h.symm
      exact ⟨hk, Nat.lt_succ_self _, fun l h1 h2 => absurd (Nat.lt_of_succ_le h2) (by omega)⟩
    · have : List.filter p [k] = [] := by simp [hk]
      rw [this, List.append_nil] at h
      obtain ⟨h1, h2, h3⟩ := ih j h
      refine ⟨h1, Nat.lt_succ_of_lt h2, fun l hl1 hl2 => ?_⟩
      rcases Nat.lt_succ_iff_lt_or_eq.mp hl2 with h' | h'
      · exact h3 l hl1 h'
      · subst h'; simpa using hk

/-- The head of `filter p (range' a m)` is the smallest index in
`[a, a+m)` satisfying `p`. -/
theorem head?_filter_range' (p : Nat → Bool) :
    ∀ (m a j : Nat), ((List.range' a m).filter p).head? = some j →
      p j = true ∧ a ≤ j ∧ j < a + m ∧ ∀ l, a ≤ l → l < j → p l = false := by
  intro m
  induction m with
  | zero => intro a j h; simp at h
  | succ m ih =>
    intro a j h
    rw [List.range'_succ, List.filter_cons] at h
    by_cases ha : p a
    · simp only [ha, if_true] at h
      obtain rfl : a = j := by simpa using h
      exact ⟨ha, le_refl _, by omega, fun l h1 h2 => absurd (lt_of_le_of_lt h1 h2) (lt_irrefl _)⟩
    · simp only [ha] at h
      obtain ⟨h1, h2, h3, h4⟩ := ih (a + 1) j h
      refine ⟨h1, by omega, by omega, fun l hl1 hl2 => ?_⟩
      rcases Nat.lt_or_ge l (a + 1) with h' | h'
      · obtain rfl : l = a := by omega
        simpa using ha
      · exact h4 l h' hl2

theorem prevInSection_length (words : List WordItem) :
    (prevInSection words).length = words.length := by
  rw [prevInSection, scanNearest_length, List.length_range]

theorem nextInSection_length (words : List WordItem) :
    (nextInSection words).length = words.length := by
  rw [nextInSection, List.length_reverse, scanNearest_length, List.length_reverse,
    List.length_range]

/-- Closed form of the `prevInSection` entry at an in-range index. -/
theorem prevInSection_eq (words : List WordItem) (i : Nat) (h : i < words.length) :
    (prevInSection words)[i]? = some
      (match ((List.range i).filter
          (fun j => decide (sectAt words j = sectAt words i))).getLast? with
       | some j => (j : Int)
       | none => -1) := by
  rw [prevInSection, scanNearest_getElem? _ _ _ _ _ (List.getElem?_range h)]
  have htake : (List.range words.length).take i = List.range i := by
    rw [List.take_range]
    congr 1
    omega
  rw [htake]
  have hs : sectAt words i = some (words[i].sectionIndex) := by
    simp [sectAt, List.getElem?_eq_getElem h]
  simp only [scanEntry, hs]
  rw [lsAfter_eq]
  cases hX : ((List.range i).filter
      (fun j => decide (sectAt words j = some (words[i].sectionIndex)))).getLast? with
  | some j => simp
  | none => simp

/-- Closed form of the `nextInSection` entry at an in-range index. -/
theorem nextInSection_eq (words : List WordItem) (i : Nat) (h : i < words.length) :
    (nextInSection words)[i]? = some
      (match ((List.range' (i + 1) (words.length - 1 - i)).filter
          (fun j => decide (sectAt words j = sectAt words i))).head? with
       | some j => (j : Int)
       | none => -1) := by
  have hlen : (scanNearest (sectAt words) (List.range words.length).reverse
      (fun _ => none)).length = words.length := by
    rw [scanNearest_length, List.length_reverse, List.length_range]
  rw [nextInSection, List.getElem?_reverse (by rw [hlen]; exact h), hlen]
  have hidx : ((List.range words.length).reverse)[words.length - 1 - i]? = some i := by
    rw [List.getElem?_reverse (by simp [List.length_range]; omega)]
    simp only [List.length_range]
    rw [show words.length - 1 - (words.length - 1 - i) = i by omega]
    exact List.getElem?_range h
  rw [scanNearest_getElem? _ _ _ _ _ hidx]
  have htake : ((List.range words.length).reverse).take (words.length - 1 - i) =
      (List.range' (i + 1) (words.length - 1 - i)).reverse := by
    rw [List.take_reverse, List.length_range, drop_range]
    rw [show words.length - (words.length - 1 - i) = i + 1 by omega]
    rw [show words.length - (i + 1) = words.length - 1 - i by omega]
  rw [htake]
  have hs : sectAt words i = some (words[i].sectionIndex) := by
    simp [sectAt, List.getElem?_eq_getElem h]
  simp only [scanEntry, hs]
  rw [lsAfter_eq]
  rw [List.filter_reverse, List.getLast?_reverse]
  cases hX : ((List.range' (i + 1) (words.length - 1 - i)).filter
      (fun j => decide (sectAt words j = some (words[i].sectionIndex)))).head? with
  | some j => simp
  | none => simp

/-- C3 — `nextInSection[i] ≠ −1` implies it is the nearest later index of
the same section; symmetrically `prevInSection[i] ≠ −1` is the nearest
earlier such index (`computeNavigationForPage`, src/src/App.tsx 162-219). -/
theorem nav_index_nearest (words : List WordItem) (i : Nat) (v : Int) :
    ((nextInSection words)[i]? = some v → v ≠ -1 →
      ∃ j : Nat, v = (j : Int) ∧ i < j ∧ sectAt words j = sectAt words i ∧
        ∀ k, i < k → k < j → sectAt words k ≠ sectAt words i) ∧
    ((prevInSection words)[i]? = some v → v ≠ -1 →
      ∃ j : Nat, v = (j : Int) ∧ j < i ∧ sectAt words j = sectAt words i ∧
        ∀ k, j < k → k < i → sectAt words k ≠ sectAt words i) := by
  constructor
  · intro hget hv
    have hi : i < words.length := by
      have := List.getElem?_eq_some_iff.mp hget
      obtain ⟨h', _⟩ := this
      rwa [nextInSection_length] at h'
    rw [nextInSection_eq words i hi] at hget
    cases hX : ((List.range' (i + 1) (words.length - 1 - i)).filter
        (fun j => decide (sectAt words j = sectAt words i))).head? with
    | none => rw [hX] at hget; simp at hget; exact absurd hget.symm hv
    | some j =>
      rw [hX] at hget
      simp only [Option.some_inj] at hget
      obtain ⟨h1, h2, h3, h4⟩ := head?_filter_range' _ _ _ _ hX
      refine ⟨j, hget.symm, by omega, by simpa using h1, fun k hk1 hk2 => ?_⟩
      have := h4 k (by omega) hk2
      simpa using this
  · intro hget hv
    have hi : i < words.length := by
      have := List.getElem?_eq_some_iff.mp hget
      obtain ⟨h', _⟩ := this
      rwa [prevInSection_length] at h'
    rw [prevInSection_eq words i hi] at hget
    cases hX : ((List.range i).filter
        (fun j => decide (sectAt words j = sectAt words i))).getLast? with
    | none => rw [hX] at hget; simp at hget; exact absurd hget.symm hv
    | some j =>
      rw [hX] at hget
      simp only [Option.some_inj] at hget
      obtain ⟨h1, h2, h3⟩ := getLast?_filter_range _ _ _ hX
      refine ⟨j, hget.symm, h2, by simpa using h1, fun k hk1 hk2 => ?_⟩
      have := h3 k hk1 hk2
      simpa using this

/-- Witness for C3 at sections `[0,0,1,0]`: `nextInSection[1] = 3`. -/
theorem nav_index_nearest_witness :
    ∃ j : Nat, (3 : Int) = (j : Int) ∧ 1 < j ∧
      sectAt [⟨0,0⟩, ⟨0,0⟩, ⟨1,0⟩, ⟨0,0⟩] j = sectAt [⟨0,0⟩, ⟨0,0⟩, ⟨1,0⟩, ⟨0,0⟩] 1 ∧
      ∀ k, 1 < k → k < j →
        sectAt [⟨0,0⟩, ⟨0,0⟩, ⟨1,0⟩, ⟨0,0⟩] k ≠ sectAt [⟨0,0⟩, ⟨0,0⟩, ⟨1,0⟩, ⟨0,0⟩] 1 :=
  (nav_index_nearest [⟨0,0⟩, ⟨0,0⟩, ⟨1,0⟩, ⟨0,0⟩] 1 3).1 (by decide) (by decide)

theorem mem_of_getLast?_eq_some {α : Type} {l : List α} {a : α}
    (h : l.getLast? = some a) : a ∈ l := by
  have hne : l ≠ [] := by intro he; subst he; simp at h
  rw [List.getLast?_eq_getLast l hne] at h
  obtain rfl : l.getLast hne = a := by simpa using h
  exact List.getLast_mem hne

theorem lookup_none_not_mem_keys {β : Type} :
    ∀ (acc : List (Nat × β)) (s : Nat), acc.lookup s = none → s ∉ acc.map (·.1) := by
  intro acc
  induction acc with
  | nil => intro s _ h; simp at h
  | cons kv acc ih =>
    intro s hl hmem
    obtain ⟨k, v⟩ := kv
    by_cases hk : s = k
    · subst hk
      simp [List.lookup] at hl
    · rw [List.map_cons, List.mem_cons] at hmem
      rcases hmem with h | h
      · exact hk h
      · refine ih s ?_ h
        have hbeq : (s == k) = false := beq_eq_false_iff_ne.mpr hk
        simp only [List.lookup, hbeq] at hl
        exact hl

theorem firstOccAux_keys_nodup :
    ∀ (ws : List WordItem) (i : Nat) (acc : List (Nat × Nat)),
      (acc.map (·.1)).Nodup → ((firstOccAux ws i acc).map (·.1)).Nodup := by
  intro ws
  induction ws with
  | nil => intro i acc h; exact h
  | cons w ws ih =>
    intro i acc h
    rw [firstOccAux]
    by_cases hl : (acc.lookup w.sectionIndex).isSome
    · simpa [hl] using ih (i + 1) _ h
    · have hnone : acc.lookup w.sectionIndex = none := by
        cases hx : acc.lookup w.sectionIndex with
        | none => rfl
        | some v => rw [hx] at hl; simp at hl
      have hnotmem := lookup_none_not_mem_keys acc w.sectionIndex hnone
      have : ((acc ++ [(w.sectionIndex, i)]).map (·.1)).Nodup := by
        rw [List.map_append]
        refine List.Nodup.append h (by simp) ?_
        intro a ha hb
        simp at hb
        subst hb
        exact hnotmem ha
      simpa [hl] using ih (i + 1) _ this

theorem firstOcc_keys_nodup (words : List WordItem) :
    ((firstOcc words).map (·.1)).Nodup :=
  firstOccAux_keys_nodup words 0 [] (by simp)

/-- `nextSectionFirst` maps the last section of the order to `null`. -/
theorem lookup_nsfm_last :
    ∀ (fo : List (Nat × Nat)), ((fo.map (·.1)).Nodup) → ∀ s,
      (fo.map (·.1)).getLast? = some s →
      (nextSectionFirstMap fo).lookup s = some none := by
  intro fo
  induction fo with
  | nil => intro _ s h; simp at h
  | cons kv fo ih =>
    obtain ⟨s0, i0⟩ := kv
    intro hnd s hlast
    cases fo with
    | nil =>
      obtain rfl : s0 = s := by simpa using hlast
      simp [nextSectionFirstMap, List.lookup]
    | cons q fo' =>
      have hlast' : ((q :: fo').map (·.1)).getLast? = some s := by
        rw [List.map_cons] at hlast
        rw [List.map_cons] at hlast ⊢
        rwa [List.getLast?_cons_cons] at hlast
      have hmem : s ∈ (q :: fo').map (·.1) := mem_of_getLast?_eq_some hlast'
      have hs0 : s0 ∉ (q :: fo').map (·.1) := by
        rw [List.map_cons, List.nodup_cons] at hnd
        exact hnd.1
      have hne : ¬(s = s0) := fun he => hs0 (he ▸ hmem)
      have hnd' : ((q :: fo').map (·.1)).Nodup := by
        rw [List.map_cons, List.nodup_cons] at hnd
        exact hnd.2
      have hbeq : (s == s0) = false := beq_eq_false_iff_ne.mpr hne
      rw [nextSectionFirstMap]
      simp only [List.lookup, hbeq]
      exact ih hnd' s hlast'

/-- When the cursor's section is the last of the section order,
`firstOfNextSectionForIndex` yields `-1`. -/
theorem firstOfNext_last (words : List WordItem) (i : Nat) (h : i < words.length)
    (hlast : (sectionOrder words).getLast? = sectAt words i) :
    (firstOfNextSectionForIndex words)[i]? = some (-1) := by
  rw [firstOfNextSectionForIndex, List.getElem?_map, List.getElem?_eq_getElem h]
  have hsect : sectAt words i = some (words[i].sectionIndex) := by
    simp [sectAt, List.getElem?_eq_getElem h]
  rw [hsect] at hlast
  have := lookup_nsfm_last (firstOcc words) (firstOcc_keys_nodup words)
    (words[i].sectionIndex) hlast
  simp [this]

/-- When no later same-page word shares the cursor's section,
`nextInSection` yields `-1`. -/
theorem nextInSection_eq_neg_one (words : List WordItem) (i : Nat) (h : i < words.length)
    (hnone : ∀ j, i < j → j < words.length → sectAt words j ≠ sectAt words i) :
    (nextInSection words)[i]? = some (-1) := by
  rw [nextInSection_eq words i h]
  have hfil : (List.range' (i + 1) (words.length - 1 - i)).filter
      (fun j => decide (sectAt words j = sectAt words i)) = [] := by
    rw [List.filter_eq_nil_iff]
    intro a ha
    rw [List.mem_range'_1] at ha
    simpa using hnone a (by omega) (by omega)
  rw [hfil]
  rfl

/-- C9 — when the cursor's word has no same-section successor, its section
is the last section of its page, and every later page is unparsed,
`ArrowRight` falls through every branch: cursor, clears and marks are all
left untouched (src/src/App.tsx 605-721). -/
theorem advance_word_noop (env : DocEnv) (cur : Cursor)
    (hw : cur.word < (env.pageWords cur.page).length)
    (hnext : ∀ j, cur.word < j → j < (env.pageWords cur.page).length →
      sectAt (env.pageWords cur.page) j ≠ sectAt (env.pageWords cur.page) cur.word)
    (hlast : (sectionOrder (env.pageWords cur.page)).getLast? =
      sectAt (env.pageWords cur.page) cur.word)
    (hpages : ∀ p, cur.page < p → p ≤ env.numPages → env.pageWords p = []) :
    advanceWord env cur = ⟨cur, [], []⟩ := by
  have hemp : (env.pageWords cur.page).isEmpty = false := by
    rw [List.isEmpty_eq_false]
    intro he
    rw [he] at hw
    simp at hw
  have h1 : (nextInSection (env.pageWords cur.page))[cur.word]? = some (-1) :=
    nextInSection_eq_neg_one _ _ hw hnext
  have h2 : (firstOfNextSectionForIndex (env.pageWords cur.page))[cur.word]? = some (-1) :=
    firstOfNext_last _ _ hw hlast
  have h3 : findNonEmptyPage env (cur.page + 1) = none := by
    rw [findNonEmptyPage, List.find?_eq_none]
    intro p hp
    rw [List.mem_range'_1] at hp
    have he : env.pageWords p = [] := hpages p (by omega) (by omega)
    simp [he]
  rw [advanceWord]
  simp [hemp, List.getElem?_eq_getElem hw, h1, h2, h3]

/-- C9 witness: on `pageA` with the cursor on the last word of the last
section and no later page, advance-word changes nothing. -/
theorem advance_word_noop_witness :
    advanceWord envA ⟨1, 9⟩ = ⟨⟨1, 9⟩, [], []⟩ :=
  advance_word_noop envA ⟨1, 9⟩ (by decide)
    (by
      intro j h1 h2
      rw [show (envA.pageWords (⟨1, 9⟩ : Cursor).page).length = 10 from rfl] at h2
      rw [show (⟨1, 9⟩ : Cursor).word = 9 from rfl] at h1
      exact absurd h1 (by omega))
    (by decide)
    (fun p h1 h2 => absurd (h1.trans_le h2) (by decide))

/-- C1 counterexample: on `pageA` with the cursor at index 2, advance-word
moves into section 1 (a different section, same page) yet emits no
`clearPreviousVisited` call at all: in the `ArrowRight` word-mode branch
the precomputed-navigation path returns before any clear
(src/src/App.tsx 703-707). -/
theorem advance_clear_counterexample :
    (advanceWord envA ⟨1, 2⟩).cursor = ⟨1, 3⟩ ∧
    sectAt pageA 3 = some 1 ∧ sectAt pageA 2 = some 0 ∧
    (advanceWord envA ⟨1, 2⟩).clears = [] := by decide

/-- C1 (amended) — advance-word emits `clear-visited-before(targetPage,
targetSection)` exactly when the destination lies on a different page;
same-page moves, even those crossing into a new section, emit no clear.
The emitted clear purges VisitedState (the only store it touches) for
every page strictly before the target and, on the target page, every
section strictly before the target section; all other entries are kept. -/
theorem advance_clear_on_page_crossing (env : DocEnv) (cur : Cursor) :
    ((advanceWord env cur).cursor.page = cur.page → (advanceWord env cur).clears = []) ∧
    ((advanceWord env cur).cursor.page ≠ cur.page →
      (advanceWord env cur).clears =
        [((advanceWord env cur).cursor.page,
          (env.pageWords (advanceWord env cur).cursor.page).head?.map (·.sectionIndex))]) ∧
    (∀ tp ts (vw : VisitedMap) p e, (p, e) ∈ vw →
      ((∃ s, e.sect = some s ∧ (p < tp ∨ (p = tp ∧ ∃ t, ts = some t ∧ s < t))) →
        (p, (⟨none, []⟩ : VisitedEntry)) ∈ clearPreviousVisited tp ts vw) ∧
      ((∀ s, e.sect = some s → ¬(p < tp ∨ (p = tp ∧ ∃ t, ts = some t ∧ s < t))) →
        (p, e) ∈ clearPreviousVisited tp ts vw)) := by
  have hshape : (advanceWord env cur = ⟨cur, [], []⟩) ∨
      ((advanceWord env cur).cursor.page = cur.page ∧ (advanceWord env cur).clears = []) ∨
      (cur.page < (advanceWord env cur).cursor.page ∧
        (advanceWord env cur).clears =
          [((advanceWord env cur).cursor.page,
            (env.pageWords (advanceWord env cur).cursor.page).head?.map (·.sectionIndex))]) := by
    by_cases hemp : (env.pageWords cur.page).isEmpty
    · by_cases hnp : cur.page + 1 ≤ env.numPages
      · right; right
        simp [advanceWord, hemp, hnp]
      · left
        simp [advanceWord, hemp, hnp]
    · cases hg : (env.pageWords cur.page)[cur.word]? with
      | none =>
        left
        simp [advanceWord, hemp, hg]
      | some w =>
        by_cases hX : (if ((nextInSection (env.pageWords cur.page))[cur.word]?).getD (-1) = -1
            then ((firstOfNextSectionForIndex (env.pageWords cur.page))[cur.word]?).getD (-1)
            else ((nextInSection (env.pageWords cur.page))[cur.word]?).getD (-1)) = -1
        · cases hf : findNonEmptyPage env (cur.page + 1) with
          | none =>
            left
            simp [advanceWord, hemp, hg, hX, hf]
          | some p =>
            right; right
            have hp : cur.page + 1 ≤ p := by
              have hmem := List.mem_of_find?_eq_some hf
              rw [List.mem_range'_1] at hmem
              omega
            have : advanceWord env cur =
                ⟨⟨p, 0⟩, [(p, (env.pageWords p).head?.map (·.sectionIndex))], [(p, 0)]⟩ := by
              simp [advanceWord, hemp, hg, hX, hf]
            rw [this]
            refine ⟨?_, rfl⟩
            show cur.page < p
            omega
        · right; left
          simp [advanceWord, hemp, hg, hX]
  refine ⟨?_, ?_, ?_⟩
  · intro h
    rcases hshape with hs | ⟨_, hs⟩ | ⟨hlt, _⟩
    · rw [hs]
    · exact hs
    · rw [h] at hlt
      exact absurd hlt (lt_irrefl _)
  · intro h
    rcases hshape with hs | ⟨heq, _⟩ | ⟨_, hs⟩
    · rw [hs] at h
      exact absurd rfl h
    · exact absurd heq h
    · exact hs
  · intro tp ts vw p e hmem
    constructor
    · rintro ⟨s, hs, hcond⟩
      refine List.mem_map.mpr ⟨(p, e), hmem, ?_⟩
      rcases hcond with hlt | ⟨rfl, t, hts, hst⟩
      · simp [hs, hlt]
      · simp [hs, hts, hst, lt_irrefl]
    · intro hall
      refine List.mem_map.mpr ⟨(p, e), hmem, ?_⟩
      cases he : e.sect with
      | none => simp [he]
      | some s =>
        have h := hall s he
        push_neg at h
        obtain ⟨h1, h2⟩ := h
        by_cases hp : p = tp
        · subst hp
          cases hts : ts with
          | none => simp [he, h1]
          | some t =>
            have hnt := h2 rfl t hts
            simp [he, h1, hts, hnt]
        · simp [he, h1, hp]

/-- C1 witness: a same-page section-crossing advance emits no clear; a
page-crossing advance emits exactly the target clear; the clear purges a
strictly-earlier visited entry. -/
theorem advance_clear_on_page_crossing_witness :
    (advanceWord envA ⟨1, 2⟩).clears = [] ∧
    (advanceWord envB ⟨1, 9⟩).clears = [(2, some 0)] ∧
    (1, (⟨none, []⟩ : VisitedEntry)) ∈
      clearPreviousVisited 2 (some 1) [(1, ⟨some 0, [2]⟩), (2, ⟨some 1, [0]⟩)] := by
  refine ⟨(advance_clear_on_page_crossing envA ⟨1, 2⟩).1 (by decide), ?_, ?_⟩
  · have h := (advance_clear_on_page_crossing envB ⟨1, 9⟩).2.1 (by decide)
    rw [h]
    decide
  · exact (((advance_clear_on_page_crossing envA ⟨1, 2⟩).2.2 2 (some 1)
      [(1, ⟨some 0, [2]⟩), (2, ⟨some 1, [0]⟩)] 1 ⟨some 0, [2]⟩ (by decide)).1
      ⟨0, rfl, Or.inl (by decide)⟩)

/-- C2 counterexample: on `pageA` with the cursor at index 3 (first word
of section 1), `prevInSection[3] = -1`, so `ArrowLeft` falls back to
`findIndex` of the nearest earlier section — landing on index 0, the
FIRST word of section 0, not on index 2 as the claim states
(src/src/App.tsx 973-981). -/
theorem retreat_word_counterexample :
    (retreatWord envA ⟨1, 3⟩).unmarks = [(1, 3)] ∧
    (retreatWord envA ⟨1, 3⟩).cursor = ⟨1, 0⟩ ∧
    ¬(retreatWord envA ⟨1, 3⟩).cursor = ⟨1, 2⟩ := by decide

/-- C2 (amended) — on `pageA` with the cursor at index 3, retreat-word
unmarks index 3 in the active tier and returns the cursor to index 0,
the first word of the nearest earlier section (section 0). -/
theorem retreat_word_to_first_of_prev_section :
    retreatWord envA ⟨1, 3⟩ = ⟨⟨1, 0⟩, [(1, 3)], [(1, 0)]⟩ := by decide

theorem mem_dedupKeepFirstAux {α : Type} [DecidableEq α] :
    ∀ (l seen : List α) (x : α), x ∈ dedupKeepFirstAux seen l ↔ x ∈ l ∧ x ∉ seen := by
  intro l
  induction l with
  | nil => intro seen x; simp [dedupKeepFirstAux]
  | cons y ys ih =>
    intro seen x
    rw [dedupKeepFirstAux]
    by_cases hy : y ∈ seen
    · rw [if_pos hy, ih]
      constructor
      · rintro ⟨h1, h2⟩
        exact ⟨List.mem_cons_of_mem _ h1, h2⟩
      · rintro ⟨h1, h2⟩
        rcases List.mem_cons.mp h1 with rfl | h1
        · exact absurd hy h2
        · exact ⟨h1, h2⟩
    · rw [if_neg hy]
      constructor
      · intro h
        rcases List.mem_cons.mp h with rfl | h
        · exact ⟨List.mem_cons_self _ _, hy⟩
        · have h' := (ih _ x).mp h
          exact ⟨List.mem_cons_of_mem _ h'.1,
            fun hx => h'.2 (List.mem_cons_of_mem _ hx)⟩
      · rintro ⟨h1, h2⟩
        by_cases hxy : x = y
        · subst hxy
          exact List.mem_cons_self _ _
        · rcases List.mem_cons.mp h1 with rfl | h1
          · exact absurd rfl hxy
          · refine List.mem_cons_of_mem _ ((ih _ x).mpr ⟨h1, ?_⟩)
            intro hx
            rcases List.mem_cons.mp hx with h' | h'
            · exact hxy h'
            · exact h2 h'

theorem count_dedupKeepFirstAux {α : Type} [DecidableEq α] :
    ∀ (l seen : List α) (x : α),
      (dedupKeepFirstAux seen l).count x = if x ∈ l ∧ x ∉ seen then 1 else 0 := by
  intro l
  induction l with
  | nil => intro seen x; simp [dedupKeepFirstAux]
  | cons y ys ih =>
    intro seen x
    rw [dedupKeepFirstAux]
    by_cases hy : y ∈ seen
    · rw [if_pos hy, ih]
      by_cases hq : x ∈ ys ∧ x ∉ seen
      · rw [if_pos hq, if_pos ⟨List.mem_cons_of_mem _ hq.1, hq.2⟩]
      · rw [if_neg hq, if_neg ?_]
        rintro ⟨h1, h2⟩
        rcases List.mem_cons.mp h1 with rfl | h1
        · exact h2 hy
        · exact hq ⟨h1, h2⟩
    · rw [if_neg hy, List.count_cons, ih]
      by_cases hxy : x = y
      · subst hxy
        have c1 : ¬(x ∈ ys ∧ x ∉ x :: seen) := fun h => h.2 (List.mem_cons_self _ _)
        have c2 : x ∈ x :: ys ∧ x ∉ seen := ⟨List.mem_cons_self _ _, hy⟩
        rw [if_neg c1, if_pos c2]
        simp
      · have hbeq : (y == x) = false := beq_eq_false_iff_ne.mpr (fun h => hxy h.symm)
        rw [hbeq]
        by_cases hq : x ∈ ys ∧ x ∉ seen
        · have c1 : x ∈ ys ∧ x ∉ y :: seen :=
            ⟨hq.1, fun h => (List.mem_cons.mp h).elim hxy hq.2⟩
          have c2 : x ∈ y :: ys ∧ x ∉ seen := ⟨List.mem_cons_of_mem _ hq.1, hq.2⟩
          rw [if_pos c1, if_pos c2]
          simp
        · have c1 : ¬(x ∈ ys ∧ x ∉ y :: seen) := fun h =>
            hq ⟨h.1, fun hx => h.2 (List.mem_cons_of_mem _ hx)⟩
          have c2 : ¬(x ∈ y :: ys ∧ x ∉ seen) := by
            rintro ⟨h1, h2⟩
            rcases List.mem_cons.mp h1 with h' | h'
            · exact hxy h'
            · exact hq ⟨h', h2⟩
          rw [if_neg c1, if_neg c2]
          simp

theorem mem_dedupKeepFirst {α : Type} [DecidableEq α] (l : List α) (x : α) :
    x ∈ dedupKeepFirst l ↔ x ∈ l := by
  rw [dedupKeepFirst, mem_dedupKeepFirstAux]
  simp

theorem flushPartitionAux_eq :
    ∀ (ms seen : List MarkReq),
      flushPartitionAux seen ms =
        ((dedupKeepFirstAux seen ms).filterMap
           (fun r => if r.tier = Tier.visited then some (r.page, r.word) else none),
         (dedupKeepFirstAux seen ms).filterMap
           (fun r => if r.tier = Tier.annotate then some (r.page, r.word) else none),
         (dedupKeepFirstAux seen ms).filterMap
           (fun r => if r.tier = Tier.erase then some (r.page, r.word) else none)) := by
  intro ms
  induction ms with
  | nil => intro seen; simp [flushPartitionAux, dedupKeepFirstAux]
  | cons m ms ih =>
    intro seen
    rw [flushPartitionAux, dedupKeepFirstAux]
    by_cases hm : m ∈ seen
    · rw [if_pos hm, if_pos hm, ih]
    · rw [if_neg hm, if_neg hm, ih]
      cases ht : m.tier <;> simp [List.filterMap_cons, ht]

theorem dedupKeepFirstAux_replicate {α : Type} [DecidableEq α] :
    ∀ (n : Nat) (x : α) (seen : List α), x ∈ seen →
      dedupKeepFirstAux seen (List.replicate n x) = [] := by
  intro n
  induction n with
  | zero => intro x seen _; rfl
  | succ n ih =>
    intro x seen hx
    rw [List.replicate_succ, dedupKeepFirstAux, if_pos hx]
    exact ih x seen hx

theorem dedupMarks_replicate (n : Nat) (m : MarkReq) (h : 1 ≤ n) :
    dedupMarks (List.replicate n m) = [m] := by
  cases n with
  | zero => exact absurd h (by omega)
  | succ n =>
    rw [dedupMarks, dedupKeepFirst, List.replicate_succ, dedupKeepFirstAux,
      if_neg (by simp), dedupKeepFirstAux_replicate n m _ (List.mem_cons_self _ _)]

/-- C5 — the flush deduplicates by `(page, word, tier)` keeping the first
occurrence (so `N ≥ 1` identical requests survive exactly once), splits
the deduplicated queue into the visited, annotate and erase batches, and
applies them in that fixed order; `N` duplicates of a request therefore
mutate the store exactly as a single one (src/src/App.tsx 227-315). -/
theorem scheduler_flush_dedup (pw : Nat → List WordItem) (st : HighlightStore)
    (pending : List MarkReq) (m : MarkReq) (hm : m ∈ pending) :
    (dedupMarks pending).count m = 1 ∧
    flushPartition pending =
      ((dedupMarks pending).filterMap
         (fun r => if r.tier = Tier.visited then some (r.page, r.word) else none),
       (dedupMarks pending).filterMap
         (fun r => if r.tier = Tier.annotate then some (r.page, r.word) else none),
       (dedupMarks pending).filterMap
         (fun r => if r.tier = Tier.erase then some (r.page, r.word) else none)) ∧
    (∀ n, 1 ≤ n → applyFlush pw st (List.replicate n m) = applyFlush pw st [m]) ∧
    applyFlush pw st pending =
      { visited := applyVisitBatch pw st.visited (flushPartition pending).1,
        annotated := applyEraseBatch pw
          (applyAnnotBatch pw st.annotated (flushPartition pending).2.1)
          (flushPartition pending).2.2 } := by
  refine ⟨?_, ?_, ?_, rfl⟩
  · rw [dedupMarks, dedupKeepFirst, count_dedupKeepFirstAux]
    simp [hm]
  · rw [dedupMarks, dedupKeepFirst, flushPartition]
    exact flushPartitionAux_eq pending []
  · intro n hn
    have hpart : flushPartition (List.replicate n m) = flushPartition [m] := by
      rw [flushPartition, flushPartition, flushPartitionAux_eq, flushPartitionAux_eq]
      have h1 : dedupKeepFirstAux ([] : List MarkReq) (List.replicate n m) = [m] := by
        have := dedupMarks_replicate n m hn
        rwa [dedupMarks, dedupKeepFirst] at this
      have h2 : dedupKeepFirstAux ([] : List MarkReq) [m] = [m] := by
        have := dedupMarks_replicate 1 m (by omega)
        rwa [dedupMarks, dedupKeepFirst, List.replicate_one] at this
      rw [h1, h2]
    rw [applyFlush, applyFlush, hpart]

/-- C5 witness: three identical visited requests dedup to one and flush
like a single request. -/
theorem scheduler_flush_dedup_witness :
    (dedupMarks [⟨1, 0, .visited⟩, ⟨1, 0, .visited⟩, ⟨1, 0, .visited⟩]).count
      ⟨1, 0, .visited⟩ = 1 ∧
    applyFlush envA.pageWords ⟨[], []⟩ (List.replicate 3 ⟨1, 0, .visited⟩) =
      applyFlush envA.pageWords ⟨[], []⟩ [⟨1, 0, .visited⟩] := by
  have h := scheduler_flush_dedup envA.pageWords ⟨[], []⟩
    [⟨1, 0, .visited⟩, ⟨1, 0, .visited⟩, ⟨1, 0, .visited⟩] ⟨1, 0, .visited⟩ (by decide)
  exact ⟨h.1, h.2.2.1 3 (by decide)⟩

theorem lookup_mem {β : Type} : ∀ (m : List (Nat × β)) (k : Nat) (v : β),
    m.lookup k = some v → (k, v) ∈ m := by
  intro m
  induction m with
  | nil => intro k v h; simp [List.lookup] at h
  | cons ab m ih =>
    intro k v h
    obtain ⟨a, b⟩ := ab
    by_cases hk : k = a
    · subst hk
      simp only [List.lookup, beq_self_eq_true] at h
      obtain rfl : b = v := by simpa using h
      exact List.mem_cons_self _ _
    · have hbeq : (k == a) = false := beq_eq_false_iff_ne.mpr hk
      simp only [List.lookup, hbeq] at h
      exact List.mem_cons_of_mem _ (ih k v h)

theorem lookup_alSet_self {β : Type} : ∀ (m : List (Nat × β)) (k : Nat) (v : β),
    (alSet k v m).lookup k = some v := by
  intro m
  induction m with
  | nil => intro k v; simp [alSet, List.lookup]
  | cons ab m ih =>
    intro k v
    obtain ⟨a, b⟩ := ab
    rw [alSet]
    by_cases hl : (((a, b) :: m).lookup k).isSome
    · rw [if_pos hl, List.map_cons]
      by_cases hak : a = k
      · subst hak
        have heq : (if ((a, b) : Nat × β).1 = a then (a, v) else (a, b)) = (a, v) :=
          if_pos rfl
        rw [heq]
        simp [List.lookup]
      · have heq : (if ((a, b) : Nat × β).1 = k then (k, v) else (a, b)) = (a, b) := by
          simp [hak]
        rw [heq]
        have hbeq : (k == a) = false := beq_eq_false_iff_ne.mpr (fun he => hak he.symm)
        simp only [List.lookup, hbeq]
        have hl' : (m.lookup k).isSome := by
          simpa [List.lookup, hbeq] using hl
        have h := ih k v
        rwa [alSet, if_pos hl'] at h
    · rw [if_neg hl]
      have hak : ¬(k = a) := by
        intro he
        subst he
        simp [List.lookup] at hl
      have hbeq : (k == a) = false := beq_eq_false_iff_ne.mpr hak
      rw [List.cons_append]
      simp only [List.lookup, hbeq]
      have hl' : ¬(m.lookup k).isSome := by
        intro hx
        apply hl
        simpa [List.lookup, hbeq] using hx
      have h := ih k v
      rwa [alSet, if_neg hl'] at h

theorem mem_alSet {β : Type} (k : Nat) (v : β) (m : List (Nat × β))
    (pe : Nat × β) (h : pe ∈ alSet k v m) : pe = (k, v) ∨ pe ∈ m := by
  rw [alSet] at h
  by_cases hl : (m.lookup k).isSome
  · rw [if_pos hl] at h
    obtain ⟨ab, hab, hfe⟩ := List.mem_map.mp h
    by_cases hak : ab.1 = k
    · rw [if_pos hak] at hfe
      exact Or.inl hfe.symm
    · rw [if_neg hak] at hfe
      exact Or.inr (hfe ▸ hab)
  · rw [if_neg hl] at h
    rcases List.mem_append.mp h with h | h
    · exact Or.inr h
    · exact Or.inl (by simpa using h)

theorem mem_addIdx (l : List Nat) (w i : Nat) :
    i ∈ addIdx l w ↔ i ∈ l ∨ i = w := by
  simp only [addIdx]
  by_cases hw : w ∈ dedupKeepFirst l
  · rw [if_pos hw, mem_dedupKeepFirst]
    constructor
    · exact Or.inl
    · rintro (h | rfl)
      · exact h
      · exact (mem_dedupKeepFirst l i).mp hw
  · rw [if_neg hw, List.mem_append, mem_dedupKeepFirst]
    simp

/-- C4 — the visited-mark store rule (the flush's visited batch,
src/src/App.tsx 248-268): no entry or a differing stored section replaces
the indices with `{w}` and sets the section, except that a `null` stored
section migrates by keeping only prior indices already in the new
section; a matching stored section simply adds `w`. -/
theorem mark_visited_section_rules (pw : Nat → List WordItem) (vw : VisitedMap)
    (p w : Nat) :
    (vw.lookup p = none →
      (visitStep pw vw (p, w)).lookup p = some ⟨sectAt (pw p) w, [w]⟩) ∧
    (∀ e, vw.lookup p = some e → e.sect = sectAt (pw p) w →
      ∃ e', (visitStep pw vw (p, w)).lookup p = some e' ∧
        e'.sect = sectAt (pw p) w ∧ (∀ i, i ∈ e'.indices ↔ i ∈ e.indices ∨ i = w)) ∧
    (∀ e s, vw.lookup p = some e → e.sect = none → sectAt (pw p) w = some s →
      ∃ e', (visitStep pw vw (p, w)).lookup p = some e' ∧ e'.sect = some s ∧
        (∀ i, i ∈ e'.indices ↔ (i ∈ e.indices ∧ sectAt (pw p) i = some s) ∨ i = w)) ∧
    (∀ e, vw.lookup p = some e → e.sect ≠ sectAt (pw p) w →
      ¬(e.sect = none ∧ sectAt (pw p) w ≠ none) →
      (visitStep pw vw (p, w)).lookup p = some ⟨sectAt (pw p) w, [w]⟩) := by
  refine ⟨?_, ?_, ?_, ?_⟩
  · intro h
    simp only [visitStep, h]
    exact lookup_alSet_self _ _ _
  · intro e he hs
    refine ⟨⟨sectAt (pw p) w, addIdx e.indices w⟩, ?_, rfl, fun i => mem_addIdx _ _ _⟩
    simp only [visitStep, he, if_pos hs]
    exact lookup_alSet_self _ _ _
  · intro e s he hnone hsec
    refine ⟨⟨some s, addIdx (e.indices.filter
      (fun idx => sectAt (pw p) idx = some s)) w⟩, ?_, rfl, ?_⟩
    · simp only [visitStep, he]
      rw [hnone, hsec, if_neg (fun hc => Option.noConfusion hc)]
      exact lookup_alSet_self _ _ _
    · intro i
      rw [mem_addIdx]
      simp [List.mem_filter]
  · intro e he hne hnm
    simp only [visitStep, he]
    cases hse : e.sect with
    | none =>
      cases hsw : sectAt (pw p) w with
      | none =>
        rw [hse, hsw] at hne
        exact absurd rfl hne
      | some b =>
        exact absurd ⟨hse, by rw [hsw]; exact fun hc => Option.noConfusion hc⟩ hnm
    | some a =>
      cases hsw : sectAt (pw p) w with
      | none =>
        rw [if_neg (fun hc => Option.noConfusion hc)]
        exact lookup_alSet_self _ _ _
      | some b =>
        by_cases hab : a = b
        · subst hab
          rw [hse, hsw] at hne
          exact absurd rfl hne
        · rw [if_neg (fun hc => hab (by simpa using hc))]
          exact lookup_alSet_self _ _ _

/-- C4 witness: the null-section migration on `pageA`, marking word 2
(section 0) over prior indices `[0, 5]` keeps only index 0 and adds 2. -/
theorem mark_visited_section_rules_witness :
    ∃ e', (visitStep envA.pageWords [(1, ⟨none, [0, 5]⟩)] (1, 2)).lookup 1 = some e' ∧
      e'.sect = some 0 ∧
      (∀ i, i ∈ e'.indices ↔
        (i ∈ (⟨none, [0, 5]⟩ : VisitedEntry).indices ∧
          sectAt (envA.pageWords 1) i = some 0) ∨ i = 2) :=
  (mark_visited_section_rules envA.pageWords [(1, ⟨none, [0, 5]⟩)] 1 2).2.2.1
    ⟨none, [0, 5]⟩ 0 (by decide) rfl (by decide)

/-- Invariant preservation for a single page write whose new entry itself
satisfies the per-entry condition. -/
theorem inv_alSet (pw : Nat → List WordItem) (vw : VisitedMap) (k : Nat)
    (e : VisitedEntry) (hinv : VisitedInv pw vw)
    (he : e.sect = none ∨ ∀ i ∈ e.indices, sectAt (pw k) i = e.sect) :
    VisitedInv pw (alSet k e vw) := by
  intro pe hpe
  rcases mem_alSet k e vw pe hpe with rfl | hpe'
  · exact he
  · exact hinv pe hpe'

theorem visitStep_inv (pw : Nat → List WordItem) (vw : VisitedMap)
    (u : Nat × Nat) (hinv : VisitedInv pw vw) :
    VisitedInv pw (visitStep pw vw u) := by
  obtain ⟨p, w⟩ := u
  simp only [visitStep]
  cases hl : vw.lookup p with
  | none =>
    refine inv_alSet pw vw p _ hinv (Or.inr ?_)
    intro i hi
    rw [List.mem_singleton] at hi
    subst hi
    rfl
  | some entry =>
    show VisitedInv pw
      (if entry.sect = sectAt (pw p) w then
        alSet p ⟨sectAt (pw p) w, addIdx entry.indices w⟩ vw
      else
        match entry.sect, sectAt (pw p) w with
        | none, some s =>
          alSet p ⟨some s, addIdx (List.filter
            (fun idx => decide (sectAt (pw p) idx = some s)) entry.indices) w⟩ vw
        | _, _ => alSet p ⟨sectAt (pw p) w, [w]⟩ vw)
    by_cases hs : entry.sect = sectAt (pw p) w
    · rw [if_pos hs]
      rcases hinv (p, entry) (lookup_mem vw p entry hl) with hni | hall
      · refine inv_alSet pw vw p _ hinv (Or.inl ?_)
        rw [← hs]
        exact hni
      · refine inv_alSet pw vw p _ hinv (Or.inr ?_)
        intro i hi
        rcases (mem_addIdx _ _ _).mp hi with hi' | rfl
        · rw [hall i hi', hs]
        · rfl
    · rw [if_neg hs]
      cases hse : entry.sect with
      | none =>
        cases hsw : sectAt (pw p) w with
        | none =>
          refine inv_alSet pw vw p _ hinv (Or.inr ?_)
          intro i hi
          rw [List.mem_singleton] at hi
          subst hi
          exact hsw
        | some b =>
          refine inv_alSet pw vw p _ hinv (Or.inr ?_)
          intro i hi
          rcases (mem_addIdx _ _ _).mp hi with hi' | hi'
          · exact of_decide_eq_true (List.mem_filter.mp hi').2
          · subst hi'
            exact hsw
      | some a =>
        cases hsw : sectAt (pw p) w with
        | none =>
          exact inv_alSet pw vw p _ hinv (Or.inl rfl)
        | some b =>
          refine inv_alSet pw vw p _ hinv (Or.inr ?_)
          intro i hi
          rw [List.mem_singleton] at hi
          subst hi
          exact hsw

theorem applyVisitBatch_inv (pw : Nat → List WordItem) :
    ∀ (batch : List (Nat × Nat)) (vw : VisitedMap), VisitedInv pw vw →
      VisitedInv pw (applyVisitBatch pw vw batch) := by
  intro batch
  induction batch with
  | nil => intro vw h; exact h
  | cons u us ih =>
    intro vw h
    exact ih _ (visitStep_inv pw vw u h)

theorem unmarkVisited_inv (pw : Nat → List WordItem) (vw : VisitedMap)
    (p w : Nat) (hinv : VisitedInv pw vw) :
    VisitedInv pw (unmarkVisited vw p w) := by
  rw [unmarkVisited]
  cases hl : vw.lookup p with
  | none => exact hinv
  | some entry =>
    show VisitedInv pw
      (if (List.filter (fun i => decide (i ≠ w)) entry.indices).isEmpty = true then
        alSet p ⟨none, []⟩ vw
      else alSet p ⟨entry.sect, List.filter (fun i => decide (i ≠ w)) entry.indices⟩ vw)
    by_cases hf : (entry.indices.filter (fun i => decide (i ≠ w))).isEmpty
    · rw [if_pos hf]
      exact inv_alSet pw vw p _ hinv (Or.inl rfl)
    · rw [if_neg hf]
      rcases hinv (p, entry) (lookup_mem vw p entry hl) with hni | hall
      · exact inv_alSet pw vw p _ hinv (Or.inl hni)
      · refine inv_alSet pw vw p _ hinv (Or.inr ?_)
        intro i hi
        exact hall i (List.mem_filter.mp hi).1

theorem clearPreviousVisited_inv (pw : Nat → List WordItem) (tp : Nat)
    (ts : Option Nat) (vw : VisitedMap) (hinv : VisitedInv pw vw) :
    VisitedInv pw (clearPreviousVisited tp ts vw) := by
  intro pe hpe
  rw [clearPreviousVisited] at hpe
  obtain ⟨qe, hqe, hfe⟩ := List.mem_map.mp hpe
  cases hq : qe.2.sect with
  | none =>
    rw [hq] at hfe
    subst hfe
    exact hinv qe hqe
  | some s =>
    rw [hq] at hfe
    cases hts : ts with
    | none =>
      rw [hts] at hfe
      have hfe' : (if qe.1 < tp then ((qe.1, ⟨none, []⟩) : Nat × VisitedEntry)
          else if qe.1 = tp then qe else qe) = pe := hfe
      by_cases h1 : qe.1 < tp
      · rw [if_pos h1] at hfe'
        subst hfe'
        exact Or.inl rfl
      · rw [if_neg h1] at hfe'
        by_cases h2 : qe.1 = tp
        · rw [if_pos h2] at hfe'
          subst hfe'
          exact hinv qe hqe
        · rw [if_neg h2] at hfe'
          subst hfe'
          exact hinv qe hqe
    | some t =>
      rw [hts] at hfe
      have hfe' : (if qe.1 < tp then ((qe.1, ⟨none, []⟩) : Nat × VisitedEntry)
          else if qe.1 = tp then
            (if s < t then ((qe.1, ⟨none, []⟩) : Nat × VisitedEntry) else qe)
          else qe) = pe := hfe
      by_cases h1 : qe.1 < tp
      · rw [if_pos h1] at hfe'
        subst hfe'
        exact Or.inl rfl
      · rw [if_neg h1] at hfe'
        by_cases h2 : qe.1 = tp
        · rw [if_pos h2] at hfe'
          by_cases h3 : s < t
          · rw [if_pos h3] at hfe'
            subst hfe'
            exact Or.inl rfl
          · rw [if_neg h3] at hfe'
            subst hfe'
            exact hinv qe hqe
        · rw [if_neg h2] at hfe'
          subst hfe'
          exact hinv qe hqe

theorem sectionRestartClear_inv (pw : Nat → List WordItem) (vw : VisitedMap)
    (p cs : Nat) (hinv : VisitedInv pw vw) :
    VisitedInv pw (sectionRestartClear vw p cs) := by
  rw [sectionRestartClear]
  cases hl : vw.lookup p with
  | none => exact hinv
  | some entry =>
    show VisitedInv pw
      (if entry.sect = some cs then alSet p { sect := none, indices := [] } vw else vw)
    by_cases hs : entry.sect = some cs
    · rw [if_pos hs]
      exact inv_alSet pw vw p _ hinv (Or.inl rfl)
    · rw [if_neg hs]
      exact hinv

/-- C10 — every mutation of the visited store (a whole scheduler visited
batch and its single steps, `unmarkVisited`, `clearPreviousVisited`, and
the `ArrowUp` section-restart clear) preserves the invariant that a page
entry with non-null section only holds indices of words of that page
whose `sectionIndex` equals the stored section. -/
theorem visited_store_invariant (pw : Nat → List WordItem) (vw : VisitedMap)
    (hinv : VisitedInv pw vw) :
    (∀ u, VisitedInv pw (visitStep pw vw u)) ∧
    (∀ batch, VisitedInv pw (applyVisitBatch pw vw batch)) ∧
    (∀ p w, VisitedInv pw (unmarkVisited vw p w)) ∧
    (∀ tp ts, VisitedInv pw (clearPreviousVisited tp ts vw)) ∧
    (∀ p cs, VisitedInv pw (sectionRestartClear vw p cs)) :=
  ⟨fun u => visitStep_inv pw vw u hinv,
   fun batch => applyVisitBatch_inv pw batch vw hinv,
   fun p w => unmarkVisited_inv pw vw p w hinv,
   fun tp ts => clearPreviousVisited_inv pw tp ts vw hinv,
   fun p cs => sectionRestartClear_inv pw vw p cs hinv⟩

/-- C10 witness: a concrete invariant-satisfying store stays invariant
under an unmark, a clear, and a visited batch on `pageA`. -/
theorem visited_store_invariant_witness :
    VisitedInv envA.pageWords (unmarkVisited [(1, ⟨some 0, [0, 1]⟩)] 1 0) ∧
    VisitedInv envA.pageWords
      (clearPreviousVisited 1 (some 2) [(1, ⟨some 0, [0, 1]⟩)]) ∧
    VisitedInv envA.pageWords
      (applyVisitBatch envA.pageWords [(1, ⟨some 0, [0, 1]⟩)] [(1, 3), (1, 4)]) :=
  ⟨(visited_store_invariant envA.pageWords [(1, ⟨some 0, [0, 1]⟩)] (by unfold VisitedInv; decide)).2.2.1 1 0,
   (visited_store_invariant envA.pageWords [(1, ⟨some 0, [0, 1]⟩)] (by unfold VisitedInv; decide)).2.2.2.1
     1 (some 2),
   (visited_store_invariant envA.pageWords [(1, ⟨some 0, [0, 1]⟩)] (by unfold VisitedInv; decide)).2.1
     [(1, 3), (1, 4)]⟩

/-- C8 — on drag-commit the erase-vs-annotate choice depends only on
whether the drag's start word is already annotated: every scheduled mark
carries the one tier chosen from the start word, and on a single page the
committed range is exactly the inclusive index interval between the two
drag endpoints (src/src/App.tsx 417-469). -/
theorem drag_commit_start_word_rule (pw : Nat → List WordItem) (am : AnnotMap)
    (ds : DragSel) :
    (∀ m ∈ dragCommitMarks pw am ds,
      m.2.2 = if dragStartAnnotated pw am ds then Tier.erase else Tier.annotate) ∧
    (ds.startP = ds.endP → ¬(pw ds.startP).isEmpty = true →
      dragCommitMarks pw am ds =
        (List.range' (min ds.startW ds.endW)
          (max ds.startW ds.endW + 1 - min ds.startW ds.endW)).map
          (fun i => (ds.startP, i,
            if dragStartAnnotated pw am ds then Tier.erase else Tier.annotate))) := by
  constructor
  · intro m hm
    simp only [dragCommitMarks, List.mem_flatMap] at hm
    obtain ⟨pageNum, _, hmem⟩ := hm
    by_cases hne : (pw pageNum).isEmpty
    · rw [if_pos hne] at hmem
      simp at hmem
    · rw [if_neg hne] at hmem
      obtain ⟨i, _, hieq⟩ := List.mem_map.mp hmem
      rw [← hieq]
  · intro hpe hne
    simp only [dragCommitMarks]
    rw [← hpe, min_self, max_self, Nat.add_sub_cancel_left]
    rw [show List.range' ds.startP 1 = [ds.startP] from rfl]
    rw [List.flatMap_cons, List.flatMap_nil, List.append_nil]
    rw [if_neg hne]
    simp

/-- C8 witness: a drag from `(2, 0)` to `(2, 4)` with word 0 already
annotated commits as an erase over indices `0..4`. -/
theorem drag_commit_start_word_rule_witness :
    dragCommitMarks (fun p => if p = 2 then pageC else []) [(2, [(0, [0])])]
      ⟨2, 0, 2, 4⟩ =
      [(2, 0, Tier.erase), (2, 1, Tier.erase), (2, 2, Tier.erase),
       (2, 3, Tier.erase), (2, 4, Tier.erase)] := by
  have h := (drag_commit_start_word_rule (fun p => if p = 2 then pageC else [])
    [(2, [(0, [0])])] ⟨2, 0, 2, 4⟩).2 rfl (by decide)
  rw [h]
  decide

theorem splitRuns_flatten : ∀ (l : List Char), (splitRuns l).flatten = l := by
  intro l
  induction l with
  | nil => rfl
  | cons c cs ih =>
    rw [splitRuns]
    cases hs : splitRuns cs with
    | nil =>
      rw [hs] at ih
      simp at ih
      simp [ih]
    | cons g gs =>
      rw [hs] at ih
      cases g with
      | nil =>
        simp [List.flatten] at ih ⊢
        exact ih
      | cons d ds =>
        show ((if c.isWhitespace = d.isWhitespace then (c :: d :: ds) :: gs
          else [c] :: (d :: ds) :: gs).flatten = c :: cs)
        by_cases hw : c.isWhitespace = d.isWhitespace
        · rw [if_pos hw]
          simp [List.flatten] at ih ⊢
          exact ih
        · rw [if_neg hw]
          simp [List.flatten] at ih ⊢
          exact ih

theorem trimChars_eq_nil_iff (l : List Char) :
    trimChars l = [] ↔ ∀ c ∈ l, c.isWhitespace = true := by
  constructor
  · intro h c hc
    rw [trimChars] at h
    have h2 : (l.dropWhile Char.isWhitespace).reverse.dropWhile Char.isWhitespace = [] := by
      cases hx : (l.dropWhile Char.isWhitespace).reverse.dropWhile Char.isWhitespace with
      | nil => rfl
      | cons a t => rw [hx] at h; simp at h
    rw [List.dropWhile_eq_nil_iff] at h2
    have h3 : ∀ x ∈ l.dropWhile Char.isWhitespace, x.isWhitespace = true := by
      intro x hx
      exact h2 x (List.mem_reverse.mpr hx)
    have hsplit := List.takeWhile_append_dropWhile Char.isWhitespace l
    rw [← hsplit] at hc
    rcases List.mem_append.mp hc with h' | h'
    · exact List.mem_takeWhile_imp h'
    · exact h3 c h'
  · intro h
    rw [trimChars]
    have h1 : l.dropWhile Char.isWhitespace = [] := List.dropWhile_eq_nil_iff.mpr h
    rw [h1]
    rfl

theorem emitParts_spec (item : TextRun) (secIdx : Nat) :
    ∀ (parts : List (List Char)) (xOff : ℚ) (senIdx : Nat),
      (∀ w ∈ (emitParts item secIdx parts xOff senIdx).1, w.sectionIndex = secIdx) ∧
      senIdx ≤ (emitParts item secIdx parts xOff senIdx).2 ∧
      (∀ w ∈ (emitParts item secIdx parts xOff senIdx).1,
        senIdx ≤ w.sentenceIndex ∧
          w.sentenceIndex ≤ (emitParts item secIdx parts xOff senIdx).2) ∧
      List.Chain' (fun u v : ParsedWord => u.sentenceIndex ≤ v.sentenceIndex)
        (emitParts item secIdx parts xOff senIdx).1 ∧
      (∀ w, ((emitParts item secIdx parts xOff senIdx).1).head? = some w →
        w.sentenceIndex = senIdx) ∧
      ((∃ part ∈ parts, trimChars part ≠ []) →
        (emitParts item secIdx parts xOff senIdx).1 ≠ []) := by
  intro parts
  induction parts with
  | nil =>
    intro xOff senIdx
    refine ⟨by simp [emitParts], le_refl _, by simp [emitParts], by simp [emitParts],
      by simp [emitParts], ?_⟩
    rintro ⟨part, hp, _⟩
    simp at hp
  | cons part ps ih =>
    intro xOff senIdx
    rw [emitParts]
    by_cases hp : trimChars part ≠ []
    · rw [if_pos hp]
      have hle : senIdx ≤ (if endsSentence (trimChars part) then senIdx + 1 else senIdx) := by
        by_cases he : endsSentence (trimChars part) <;> simp [he]
      obtain ⟨a1, a2, a3, a4, a5, a6⟩ := ih (xOff + ((part.length : ℚ) / (item.str.length : ℚ)) * item.width)
        (if endsSentence (trimChars part) then senIdx + 1 else senIdx)
      refine ⟨?_, le_trans hle a2, ?_, ?_, ?_, ?_⟩
      · intro w hw
        rcases List.mem_cons.mp hw with rfl | hw
        · rfl
        · exact a1 w hw
      · intro w hw
        rcases List.mem_cons.mp hw with rfl | hw
        · exact ⟨le_refl _, le_trans hle a2⟩
        · exact ⟨le_trans hle (a3 w hw).1, (a3 w hw).2⟩
      · rw [List.chain'_cons']
        refine ⟨?_, a4⟩
        intro y hy
        exact le_trans hle (a3 y (List.mem_of_mem_head? hy)).1
      · intro w hw
        simp at hw
        rw [← hw]
      · intro _
        simp
    · rw [if_neg hp]
      obtain ⟨a1, a2, a3, a4, a5, a6⟩ := ih
        (xOff + ((part.length : ℚ) / (item.str.length : ℚ)) * item.width) senIdx
      refine ⟨a1, a2, a3, a4, a5, ?_⟩
      rintro ⟨part', hp', hne'⟩
      rcases List.mem_cons.mp hp' with rfl | hp'
      · exact absurd hne' hp
      · exact a6 ⟨part', hp', hne'⟩

theorem chain'_of_const {α : Type} (f : α → Nat) (c : Nat) :
    ∀ (l : List α), (∀ x ∈ l, f x = c) →
      List.Chain' (fun u v => f u ≤ f v) l := by
  intro l
  induction l with
  | nil => intro _; exact List.chain'_nil
  | cons a t ih =>
    intro h
    rw [List.chain'_cons']
    refine ⟨?_, ih (fun x hx => h x (List.mem_cons_of_mem _ hx))⟩
    intro y hy
    rw [h a (List.mem_cons_self _ _), h y (List.mem_cons_of_mem _ (List.mem_of_mem_head? hy))]

theorem segmentLoop_spec :
    ∀ (items : List TextRun) (secIdx senIdx : Nat) (lastY lastH : Option ℚ),
      (∀ w ∈ segmentLoop items secIdx senIdx lastY lastH,
        secIdx ≤ w.sectionIndex ∧ senIdx ≤ w.sentenceIndex) ∧
      List.Chain' (fun u v : ParsedWord => u.sectionIndex ≤ v.sectionIndex)
        (segmentLoop items secIdx senIdx lastY lastH) ∧
      List.Chain' (fun u v : ParsedWord => u.sentenceIndex ≤ v.sentenceIndex)
        (segmentLoop items secIdx senIdx lastY lastH) ∧
      (∀ w, (segmentLoop items secIdx senIdx lastY lastH).head? = some w →
        w.sentenceIndex = senIdx ∧ (lastY = none → w.sectionIndex = secIdx)) := by
  intro items
  induction items with
  | nil =>
    intro secIdx senIdx lastY lastH
    refine ⟨by simp [segmentLoop], List.chain'_nil, List.chain'_nil, ?_⟩
    intro w hw
    simp [segmentLoop] at hw
  | cons item rest ih =>
    intro secIdx senIdx lastY lastH
    rw [segmentLoop]
    by_cases h1 : trimChars item.str = []
    · rw [if_pos h1]
      exact ih secIdx senIdx lastY lastH
    · rw [if_neg h1]
      by_cases h2 : |item.transform.b| > 1 / 10000 ∨ |item.transform.c| > 1 / 10000 ∨
          |item.transform.d| ≤ 0 ∨ item.width ≤ 0
      · rw [if_pos h2]
        exact ih secIdx senIdx lastY lastH
      · rw [if_neg h2]
        set secIdx' := sectionBump secIdx lastY lastH item.transform.f with hsec
        have hss : secIdx ≤ secIdx' := by
          rw [hsec]
          cases lastY with
          | none => cases lastH <;> exact le_refl _
          | some ly =>
            cases lastH with
            | none => exact le_refl _
            | some lh =>
              rw [sectionBump]
              by_cases hgap : |item.transform.f - ly| > lh * (3 / 2)
              · rw [if_pos hgap]
                exact Nat.le_succ _
              · rw [if_neg hgap]
        obtain ⟨e1, e2, e3, e4, e5, e6⟩ :=
          emitParts_spec item secIdx' (splitRuns item.str) 0 senIdx
        obtain ⟨s1, s2, s3, s4⟩ := ih secIdx'
          (emitParts item secIdx' (splitRuns item.str) 0 senIdx).2
          (some item.transform.f) (some |item.transform.d|)
        have hwords : (emitParts item secIdx' (splitRuns item.str) 0 senIdx).1 ≠ [] := by
          apply e6
          have hex : ∃ c ∈ item.str, ¬c.isWhitespace = true := by
            by_contra hall
            push_neg at hall
            exact h1 ((trimChars_eq_nil_iff item.str).mpr
              (fun c hc => by simpa using hall c hc))
          obtain ⟨c, hc, hcw⟩ := hex
          have hc' : c ∈ (splitRuns item.str).flatten := by
            rw [splitRuns_flatten]
            exact hc
          obtain ⟨g, hg, hcg⟩ := List.mem_flatten.mp hc'
          refine ⟨g, hg, ?_⟩
          intro hgnil
          exact hcw ((trimChars_eq_nil_iff g).mp hgnil c hcg)
        refine ⟨?_, ?_, ?_, ?_⟩
        · intro w hw
          rcases List.mem_append.mp hw with hw | hw
          · exact ⟨le_trans hss (le_of_eq (e1 w hw).symm), (e3 w hw).1⟩
          · exact ⟨le_trans hss (s1 w hw).1, le_trans e2 (s1 w hw).2⟩
        · refine List.Chain'.append ?_ s2 ?_
          · exact chain'_of_const (fun w : ParsedWord => w.sectionIndex) secIdx' _ e1
          · intro x hx y hy
            rw [e1 x (mem_of_getLast?_eq_some hx)]
            exact (s1 y (List.mem_of_mem_head? hy)).1
        · refine List.Chain'.append e4 s3 ?_
          intro x hx y hy
          exact le_trans (e3 x (mem_of_getLast?_eq_some hx)).2
            (s1 y (List.mem_of_mem_head? hy)).2
        · intro w hw
          cases hout : (emitParts item secIdx' (splitRuns item.str) 0 senIdx).1 with
          | nil => exact absurd hout hwords
          | cons a t =>
            rw [hout, List.cons_append] at hw
            simp at hw
            subst hw
            have ha : a ∈ (emitParts item secIdx' (splitRuns item.str) 0 senIdx).1 := by
              rw [hout]
              exact List.mem_cons_self _ _
            refine ⟨e5 a (by rw [hout]; rfl), ?_⟩
            intro hly
            rw [e1 a ha, hsec, hly]
            cases lastH <;> rfl

/-- C6 — for every page produced by the word segmenter, `sectionIndex`
and `sentenceIndex` are non-decreasing along the word list, and both are
0 for the first word (src/unnamed/part_000 84-139). -/
theorem segmenter_monotone (items : List TextRun) :
    List.Chain' (fun u v : ParsedWord => u.sectionIndex ≤ v.sectionIndex)
      (segmentPage items) ∧
    List.Chain' (fun u v : ParsedWord => u.sentenceIndex ≤ v.sentenceIndex)
      (segmentPage items) ∧
    (∀ w, (segmentPage items).head? = some w →
      w.sectionIndex = 0 ∧ w.sentenceIndex = 0) := by
  obtain ⟨_, s2, s3, s4⟩ := segmentLoop_spec items 0 0 none none
  exact ⟨s2, s3, fun w hw => ⟨(s4 w hw).2 rfl, (s4 w hw).1⟩⟩

/-- C6 witness: on the run `"Hi x"` the first emitted word carries
section 0 and sentence 0. -/
theorem segmenter_monotone_witness :
    ∃ w, (segmentPage [⟨['H', 'i', ' ', 'x'], ⟨1, 0, 0, 12, 0, 700⟩, 50⟩]).head? =
        some w ∧ w.sectionIndex = 0 ∧ w.sentenceIndex = 0 := by
  have hh : (segmentPage [⟨['H', 'i', ' ', 'x'], ⟨1, 0, 0, 12, 0, 700⟩, 50⟩]).head? =
      some ⟨['H', 'i'], 25, ⟨1, 0, 0, 12, 0, 700⟩, 12, 0, 0⟩ := by
    norm_num +decide [segmentPage, segmentLoop, trimChars, splitRuns, emitParts,
      sectionBump, endsSentence, Char.isWhitespace, List.dropWhile]
  exact ⟨_, hh,
    (segmenter_monotone [⟨['H', 'i', ' ', 'x'], ⟨1, 0, 0, 12, 0, 700⟩, 50⟩]).2.2 _ hh⟩

theorem max_rcomm (a b c : ℚ) : max (max a b) c = max (max a c) b := by
  rw [max_assoc, max_comm b c, ← max_assoc]

/-- Two rectangles agree when their corners and baseline agree. -/
theorem rect_ext (a b : HighlightRect) (h1 : a.x = b.x) (h2 : a.y = b.y)
    (h3 : a.x + a.width = b.x + b.width) (h4 : a.y + a.height = b.y + b.height)
    (h5 : a.lineY = b.lineY) : a = b := by
  obtain ⟨ax, ay, aw, ah, al⟩ := a
  obtain ⟨bx, by2, bw, bh, bl⟩ := b
  simp only at h1 h2 h3 h4 h5
  subst h1
  subst h2
  subst h5
  have hw : aw = bw := by linarith
  have hh : ah = bh := by linarith
  rw [hw, hh]

theorem mergeRects_comm (c n : HighlightRect) : mergeRects c n = mergeRects n c := by
  simp only [mergeRects, HighlightRect.mk.injEq]
  refine ⟨min_comm _ _, min_comm _ _, ?_, ?_, ?_⟩
  · rw [max_comm (c.x + c.width), min_comm]
  · rw [max_comm (c.y + c.height), min_comm]
  · rw [add_comm]

theorem mergeRects_right (c n : HighlightRect) :
    (mergeRects c n).x + (mergeRects c n).width =
      max (c.x + c.width) (n.x + n.width) := by
  simp only [mergeRects]
  ring

theorem mergeRects_bottom (c n : HighlightRect) :
    (mergeRects c n).y + (mergeRects c n).height =
      max (c.y + c.height) (n.y + n.height) := by
  simp only [mergeRects]
  ring

theorem mergeRects_exchange (c u v : HighlightRect) (h : u.lineY = v.lineY) :
    mergeRects (mergeRects c u) v = mergeRects (mergeRects c v) u := by
  apply rect_ext
  · show min (min c.x u.x) v.x = min (min c.x v.x) u.x
    exact min_right_comm _ _ _
  · show min (min c.y u.y) v.y = min (min c.y v.y) u.y
    exact min_right_comm _ _ _
  · rw [mergeRects_right, mergeRects_right, mergeRects_right, mergeRects_right]
    exact max_rcomm _ _ _
  · rw [mergeRects_bottom, mergeRects_bottom, mergeRects_bottom, mergeRects_bottom]
    exact max_rcomm _ _ _
  · show ((round ((((round ((c.lineY + u.lineY) / 2) : ℤ) : ℚ) + v.lineY) / 2) : ℤ) : ℚ) =
      ((round ((((round ((c.lineY + v.lineY) / 2) : ℤ) : ℚ) + u.lineY) / 2) : ℤ) : ℚ)
    rw [h]

/-- The averaged-and-rounded baseline stays within the line tolerance of
any rectangle whose distance to one of the inputs was within it. -/
theorem round_avg_close (c u tol : ℚ) (htol : 1 ≤ tol) (h : |u - c| ≤ tol) :
    |u - ((round ((c + u) / 2) : ℤ) : ℚ)| ≤ tol := by
  have h1 : |u - (c + u) / 2| = |u - c| / 2 := by
    rw [show u - (c + u) / 2 = (u - c) / 2 by ring, abs_div]
    norm_num
  have h2 := abs_sub_round ((c + u) / 2)
  have h3 := abs_sub_le u ((c + u) / 2) ((round ((c + u) / 2) : ℤ) : ℚ)
  rw [h1] at h3
  linarith

/-- Swapping two adjacent key-equal rectangles right after the running
rectangle leaves the scan unchanged (word widths nonnegative). -/
theorem mergeLoop_swap_head (tol gap : ℚ) (htol : 1 ≤ tol) (hgap : 0 ≤ gap)
    (c u v : HighlightRect) (rest : List HighlightRect)
    (hkey1 : u.lineY = v.lineY) (hkey2 : u.x = v.x)
    (hu : 0 ≤ u.width) (hv : 0 ≤ v.width) :
    mergeLoop tol gap c (u :: v :: rest) = mergeLoop tol gap c (v :: u :: rest) := by
  by_cases hC : |u.lineY - c.lineY| ≤ tol ∧ u.x ≤ c.x + c.width + gap
  · have hCv : |v.lineY - c.lineY| ≤ tol ∧ v.x ≤ c.x + c.width + gap := by
      rw [← hkey1, ← hkey2]
      exact hC
    rw [mergeLoop, if_pos hC]
    conv_rhs => rw [mergeLoop, if_pos hCv]
    have hCu2 : |v.lineY - (mergeRects c u).lineY| ≤ tol ∧
        v.x ≤ (mergeRects c u).x + (mergeRects c u).width + gap := by
      constructor
      · rw [← hkey1]
        exact round_avg_close c.lineY u.lineY tol htol hC.1
      · rw [← hkey2, mergeRects_right]
        have := le_max_left (c.x + c.width) (u.x + u.width)
        linarith [hC.2]
    have hCv2 : |u.lineY - (mergeRects c v).lineY| ≤ tol ∧
        u.x ≤ (mergeRects c v).x + (mergeRects c v).width + gap := by
      constructor
      · rw [hkey1]
        exact round_avg_close c.lineY v.lineY tol htol hCv.1
      · rw [hkey2, mergeRects_right]
        have := le_max_left (c.x + c.width) (v.x + v.width)
        linarith [hCv.2]
    rw [mergeLoop, if_pos hCu2]
    conv_rhs => rw [mergeLoop, if_pos hCv2]
    rw [mergeRects_exchange c u v hkey1]
  · have hCv : ¬(|v.lineY - c.lineY| ≤ tol ∧ v.x ≤ c.x + c.width + gap) := by
      rw [← hkey1, ← hkey2]
      exact hC
    rw [mergeLoop, if_neg hC]
    conv_rhs => rw [mergeLoop, if_neg hCv]
    congr 1
    have hCuv : |v.lineY - u.lineY| ≤ tol ∧ v.x ≤ u.x + u.width + gap := by
      constructor
      · rw [← hkey1]
        simp only [sub_self, abs_zero]
        linarith
      · rw [← hkey2]
        linarith
    have hCvu : |u.lineY - v.lineY| ≤ tol ∧ u.x ≤ v.x + v.width + gap := by
      constructor
      · rw [hkey1]
        simp only [sub_self, abs_zero]
        linarith
      · rw [hkey2]
        linarith
    rw [mergeLoop, if_pos hCuv]
    conv_rhs => rw [mergeLoop, if_pos hCvu]
    rw [mergeRects_comm]

theorem mergeLoop_swap_at (tol gap : ℚ) (htol : 1 ≤ tol) (hgap : 0 ≤ gap) :
    ∀ (pre : List HighlightRect) (u v : HighlightRect) (post : List HighlightRect),
      u.lineY = v.lineY → u.x = v.x → 0 ≤ u.width → 0 ≤ v.width → ∀ c,
      mergeLoop tol gap c (pre ++ u :: v :: post) =
        mergeLoop tol gap c (pre ++ v :: u :: post) := by
  intro pre
  induction pre with
  | nil =>
    intro u v post hk1 hk2 hu hv c
    exact mergeLoop_swap_head tol gap htol hgap c u v post hk1 hk2 hu hv
  | cons a pre ih =>
    intro u v post hk1 hk2 hu hv c
    rw [List.cons_append, List.cons_append, mergeLoop]
    conv_rhs => rw [mergeLoop]
    by_cases hC : |a.lineY - c.lineY| ≤ tol ∧ a.x ≤ c.x + c.width + gap
    · rw [if_pos hC, if_pos hC]
      exact ih u v post hk1 hk2 hu hv _
    · rw [if_neg hC, if_neg hC]
      congr 1
      exact ih u v post hk1 hk2 hu hv _

theorem swapStep_perm {l₁ l₂ : List HighlightRect} (h : SwapStep l₁ l₂) :
    l₁.Perm l₂ := by
  obtain ⟨pre, u, v, post, rfl, rfl, _, _⟩ := h
  exact List.Perm.append_left pre (List.Perm.swap v u post)

theorem runMerge_swapStep (tol gap : ℚ) (htol : 1 ≤ tol) (hgap : 0 ≤ gap)
    {l₁ l₂ : List HighlightRect} (h : SwapStep l₁ l₂)
    (hw : ∀ r ∈ l₁, 0 ≤ r.width) :
    runMerge tol gap l₁ = runMerge tol gap l₂ := by
  obtain ⟨pre, u, v, post, rfl, rfl, hk1, hk2⟩ := h
  have hu : 0 ≤ u.width := hw u (by simp)
  have hv : 0 ≤ v.width := hw v (by simp)
  cases pre with
  | nil =>
    simp only [List.nil_append]
    rw [runMerge, runMerge]
    have hCuv : |v.lineY - u.lineY| ≤ tol ∧ v.x ≤ u.x + u.width + gap := by
      constructor
      · rw [← hk1]
        simp only [sub_self, abs_zero]
        linarith
      · rw [← hk2]
        linarith
    have hCvu : |u.lineY - v.lineY| ≤ tol ∧ u.x ≤ v.x + v.width + gap := by
      constructor
      · rw [hk1]
        simp only [sub_self, abs_zero]
        linarith
      · rw [hk2]
        linarith
    rw [mergeLoop, if_pos hCuv]
    conv_rhs => rw [mergeLoop, if_pos hCvu]
    rw [mergeRects_comm]
  | cons a pre' =>
    rw [List.cons_append, List.cons_append, runMerge, runMerge]
    exact mergeLoop_swap_at tol gap htol hgap pre' u v post hk1 hk2 hu hv a

theorem rtg_swap_perm {l₁ l₂ : List HighlightRect}
    (h : Relation.ReflTransGen SwapStep l₁ l₂) : l₁.Perm l₂ := by
  induction h with
  | refl => exact List.Perm.refl _
  | tail _ hstep ih => exact ih.trans (swapStep_perm hstep)

theorem runMerge_eq_of_swaps (tol gap : ℚ) (htol : 1 ≤ tol) (hgap : 0 ≤ gap)
    {l₁ l₂ : List HighlightRect} (h : Relation.ReflTransGen SwapStep l₁ l₂)
    (hw : ∀ r ∈ l₁, 0 ≤ r.width) :
    runMerge tol gap l₁ = runMerge tol gap l₂ := by
  induction h with
  | refl => rfl
  | tail hab hstep ih =>
    rw [ih]
    refine runMerge_swapStep tol gap htol hgap hstep ?_
    intro r hr
    exact hw r ((rtg_swap_perm hab).mem_iff.mpr hr)

theorem rectLE_refl (a : HighlightRect) : rectLE a a := Or.inr ⟨rfl, le_refl _⟩

theorem rectLE_keys (a b : HighlightRect) (h1 : rectLE a b) (h2 : rectLE b a) :
    a.lineY = b.lineY ∧ a.x = b.x := by
  rcases h1 with h1 | ⟨h1, h1'⟩ <;> rcases h2 with h2 | ⟨h2, h2'⟩
  · exact absurd (h1.trans h2) (lt_irrefl _)
  · rw [h2] at h1
    exact absurd h1 (lt_irrefl _)
  · rw [h1] at h2
    exact absurd h2 (lt_irrefl _)
  · exact ⟨h1, le_antisymm h1' h2'⟩

theorem swapStep_symm : Symmetric SwapStep := by
  rintro l₁ l₂ ⟨pre, u, v, post, h1, h2, k1, k2⟩
  exact ⟨pre, v, u, post, h2, h1, k1.symm, k2.symm⟩

theorem swapStep_cons {t t' : List HighlightRect} (b : HighlightRect)
    (h : SwapStep t t') : SwapStep (b :: t) (b :: t') := by
  obtain ⟨pre, u, v, post, rfl, rfl, k1, k2⟩ := h
  exact ⟨b :: pre, u, v, post, rfl, rfl, k1, k2⟩

theorem rtg_swap_cons {t t' : List HighlightRect} (b : HighlightRect)
    (h : Relation.ReflTransGen SwapStep t t') :
    Relation.ReflTransGen SwapStep (b :: t) (b :: t') := by
  induction h with
  | refl => exact Relation.ReflTransGen.refl
  | tail _ hstep ih => exact ih.tail (swapStep_cons b hstep)

/-- A minimal element of a sorted list bubbles to the front through
adjacent swaps of key-equal rectangles. -/
theorem bubble_min :
    ∀ (l : List HighlightRect) (a : HighlightRect), a ∈ l →
      List.Sorted rectLE l → (∀ b ∈ l, rectLE a b) →
      Relation.ReflTransGen SwapStep l (a :: l.erase a) := by
  intro l
  induction l with
  | nil => intro a ha _ _; simp at ha
  | cons b t ih =>
    intro a ha hsort hmin
    by_cases hab : a = b
    · subst hab
      rw [List.erase_cons_head]
    · have hat : a ∈ t := by
        rcases List.mem_cons.mp ha with h | h
        · exact absurd h hab
        · exact h
      have hba : rectLE b a := List.rel_of_sorted_cons hsort a hat
      have hab' : rectLE a b := hmin b (List.mem_cons_self _ _)
      have hkeys := rectLE_keys b a hba hab'
      have ht : Relation.ReflTransGen SwapStep t (a :: t.erase a) :=
        ih a hat hsort.of_cons (fun x hx => hmin x (List.mem_cons_of_mem _ hx))
      have hswap : SwapStep (b :: a :: t.erase a) (a :: b :: t.erase a) :=
        ⟨[], b, a, t.erase a, rfl, rfl, hkeys.1, hkeys.2⟩
      have herase : (b :: t).erase a = b :: t.erase a :=
        List.erase_cons_tail (by simpa using fun h => hab h.symm)
      rw [herase]
      exact (rtg_swap_cons b ht).tail hswap

/-- Any two sorted lists that are permutations of each other are linked
by adjacent swaps of key-equal rectangles. -/
theorem sorted_perm_swaps :
    ∀ (l₁ l₂ : List HighlightRect), l₁.Perm l₂ →
      List.Sorted rectLE l₁ → List.Sorted rectLE l₂ →
      Relation.ReflTransGen SwapStep l₁ l₂ := by
  intro l₁
  induction l₁ with
  | nil =>
    intro l₂ hp _ _
    rw [hp.symm.eq_nil]
  | cons a t ih =>
    intro l₂ hp hs₁ hs₂
    have ha₂ : a ∈ l₂ := hp.mem_iff.mp (List.mem_cons_self _ _)
    have hmin : ∀ b ∈ l₂, rectLE a b := by
      intro b hb
      rcases List.mem_cons.mp (hp.mem_iff.mpr hb) with rfl | hbt
      · exact rectLE_refl _
      · exact List.rel_of_sorted_cons hs₁ b hbt
    have hbub := bubble_min l₂ a ha₂ hs₂ hmin
    have hperm_t : t.Perm (l₂.erase a) :=
      (hp.trans (List.perm_cons_erase ha₂)).cons_inv
    have hs₂' : List.Sorted rectLE (l₂.erase a) :=
      List.Pairwise.sublist (List.erase_sublist a l₂) hs₂
    have ht := ih (l₂.erase a) hperm_t hs₁.of_cons hs₂'
    exact (rtg_swap_cons a ht).trans
      ((Relation.ReflTransGen.symmetric swapStep_symm) hbub)

/-- C7 — `mergeHighlightRects` is invariant under permutation of its
input list of word rectangles (nonnegative widths): the stable sort
leaves only adjacent key-equal transpositions, and the scan is invariant
under those (src/src/utils/highlightUtils.ts 14-51). -/
theorem merge_rects_perm_invariant (l₁ l₂ : List HighlightRect)
    (hperm : l₁.Perm l₂) (hw : ∀ r ∈ l₁, 0 ≤ r.width) :
    mergeHighlightRects l₁ = mergeHighlightRects l₂ := by
  by_cases hnil : l₁ = []
  · subst hnil
    rw [hperm.symm.eq_nil]
  · have hnil₂ : l₂ ≠ [] := by
      intro h
      rw [h] at hperm
      exact hnil hperm.eq_nil
    rw [mergeHighlightRects, mergeHighlightRects,
      if_neg (by simp [List.isEmpty_iff, hnil]),
      if_neg (by simp [List.isEmpty_iff, hnil₂])]
    have hsum : (l₁.map (·.width)).sum = (l₂.map (·.width)).sum :=
      (hperm.map (·.width)).sum_eq
    have hlen : l₁.length = l₂.length := hperm.length_eq
    rw [hsum, hlen]
    refine runMerge_eq_of_swaps _ _ ?_ ?_ ?_ ?_
    · exact le_trans one_le_two (le_max_left _ _)
    · refine le_trans ?_ (le_max_left _ _)
      norm_num [PDF_SCALE]
    · refine sorted_perm_swaps _ _ ?_ ?_ ?_
      · exact (List.perm_insertionSort rectLE l₁).trans
          (hperm.trans (List.perm_insertionSort rectLE l₂).symm)
      · exact List.sorted_insertionSort rectLE l₁
      · exact List.sorted_insertionSort rectLE l₂
    · intro r hr
      exact hw r ((List.perm_insertionSort rectLE l₁).mem_iff.mp hr)

/-- C7 witness: two overlapping same-line rectangles given in either
order merge identically. -/
theorem merge_rects_perm_invariant_witness :
    mergeHighlightRects [⟨0, 0, 3, 1, 10⟩, ⟨5, 0, 2, 1, 10⟩] =
      mergeHighlightRects [⟨5, 0, 2, 1, 10⟩, ⟨0, 0, 3, 1, 10⟩] :=
  merge_rects_perm_invariant _ _ (by decide) (by decide)

end ReFocus
